import Mathlib

/-!
Verification development for the duplicate-bug similarity module
(`bugbug/similarity.py`).

Conventions of the shallow embedding:
* Python strings are modelled as lists of characters (`Str`).
* Python `float` values arising from rational arithmetic are modelled as `ℚ`;
  `float("inf")` is modelled as the top element of `WithTop ℚ`.
* A Python exception escaping a function is modelled by an `Option`/`none`
  result.
* External collaborators (the report store, the text-cleanup rules, the
  stemmer/stopword primitives, the trained embedding state, the fitted
  vectorizer/neighbour structures) are parameters of the embedded functions,
  exactly at the interfaces the module uses them.
* Python's stable `sort`/`sorted` is modelled by a stable insertion sort
  (`stableSort`).
-/

abbrev Str := List Char

def strOf (s : String) : Str := s.toList

/-- Stable insertion of `x` into `l`: `x` is placed after every element `y`
with `le y x`, which is the ordering contract of Python's stable sorts. -/
def insSorted (le : α → α → Bool) (x : α) : List α → List α
  | [] => [x]
  | y :: ys => if le y x then y :: insSorted le x ys else x :: y :: ys

/-- Model of Python's stable ascending `list.sort` / `sorted` under the
boolean comparison `le`. -/
def stableSort (le : α → α → Bool) (l : List α) : List α :=
  l.foldl (fun acc x => insSorted le x acc) []

/-- Model of Python's `list.insert(j, x)` (index clamped to the list length). -/
def insertAt : Nat → α → List α → List α
  | 0, x, l => x :: l
  | _ + 1, x, [] => [x]
  | j + 1, x, y :: ys => y :: insertAt j x ys

/-- First index of `w` in the list (the length if absent), modelling
Python's `list.index` and gensim's `vocab[w].index` lookups. -/
def idxOf [DecidableEq α] : List α → α → Nat
  | [], _ => 0
  | v :: vs, w => if v = w then 0 else idxOf vs w + 1

/-! ## Ground-truth duplicate index (module level code, lines 37-64) -/

structure Bug where
  id : Nat
  creator : Str
  keywords : List Str
  duplicates : List Nat
  dupe_of : Option Nat
deriving DecidableEq

def REPORTERS_TO_IGNORE : List Str :=
  [strOf "intermittent-bug-filer@mozilla.bugs", strOf "wptsync@mozilla.bugs"]

/-- The eligibility test of the `all_ids` comprehension: creator not ignored
and the `dupeme` keyword absent. -/
def eligibleBug (b : Bug) : Bool :=
  decide (b.creator ∉ REPORTERS_TO_IGNORE) && decide (strOf "dupeme" ∉ b.keywords)

/-- The set `all_ids` (lines 51-55), as a list used only through membership. -/
def all_ids (bugs : List Bug) : List Nat :=
  (bugs.filter eligibleBug).map Bug.id

/-- The `dupes` list computed for one bug (lines 58-60): its duplicate
references filtered to eligible ids, then its `dupe_of` backreference if
eligible. -/
def dupesOf (bugs : List Bug) (b : Bug) : List Nat :=
  b.duplicates.filter (fun e => decide (e ∈ all_ids bugs)) ++
    (match b.dupe_of with
     | some d => if d ∈ all_ids bugs then [d] else []
     | none => [])

/-- `defaultdict(set)` update `m[k] |= s`: a fresh entry is created when the
key is absent (Python's `defaultdict.__getitem__` inserts the default). -/
def addToKey : List (Nat × Finset Nat) → Nat → Finset Nat → List (Nat × Finset Nat)
  | [], k, s => [(k, s)]
  | (k1, s1) :: rest, k, s =>
    if k1 = k then (k1, s1 ∪ s) :: rest else (k1, s1) :: addToKey rest k s

/-- One iteration of the ground-truth loop (lines 57-64):
`duplicates[bug.id].update(dupes)` then `duplicates[dupe].add(bug.id)` for
each dupe. -/
def dupStep (bugs : List Bug) (m : List (Nat × Finset Nat)) (b : Bug) :
    List (Nat × Finset Nat) :=
  let ds := dupesOf bugs b
  ds.foldl (fun m2 d => addToKey m2 d {b.id}) (addToKey m b.id ds.toFinset)

/-- The module-level `duplicates` map after the construction loop, keyed as an
association list so that key presence (defaultdict behaviour) is observable. -/
def duplicates (bugs : List Bug) : List (Nat × Finset Nat) :=
  bugs.foldl (dupStep bugs) []

/-- Read access `duplicates[k]` as used by the evaluation code: the value set
when the key is present, the empty set otherwise. -/
def ddGet (m : List (Nat × Finset Nat)) (k : Nat) : Finset Nat :=
  match m.lookup k with
  | some s => s
  | none => ∅

/-! ## Text normalization (`text_preprocess`, lines 71-85) -/

/-- `re.sub("[^a-zA-Z0-9]", " ", text)`: every non-alphanumeric character
becomes a space. -/
def keepAlnum (t : Str) : Str := t.map (fun c => if c.isAlphanum then c else ' ')

/-- `text.lower()`. After `keepAlnum` every character is ASCII, for which
`Char.toLower` agrees with Python's `str.lower`. -/
def lowerStr (t : Str) : Str := t.map Char.toLower

/-- The chain of `cleanup_functions` applications (lines 72-73); the cleanup
rules live in the external `feature_cleanup` library and are parameters. -/
def applyCleanups (cleanups : List (Str → Str)) (text : Str) : Str :=
  cleanups.foldl (fun acc f => f acc) text

/-- Maximal runs of non-whitespace characters, with a (possibly empty) run
opened at every whitespace character. -/
def splitGroups (s : Str) : List Str :=
  s.foldr (fun c acc =>
    if c.isWhitespace then [] :: acc
    else
      match acc with
      | [] => [[c]]
      | g :: gs => (c :: g) :: gs) []

/-- Python's `str.split()` with no argument: split on runs of whitespace,
returning no empty tokens. -/
def splitWS (s : Str) : List Str :=
  (splitGroups s).filter (fun g => !g.isEmpty)

/-- `text_preprocess` (lines 71-85) without `join`: cleanup chain, strip
non-alphanumerics, lowercase, split, drop stopwords and length-≤1 words, stem.
The stemmer and the stopword list are external collaborators (nltk), passed
as parameters. -/
def text_preprocess (cleanups : List (Str → Str)) (stopw : List Str)
    (stem : Str → Str) (text : Str) : List Str :=
  ((splitWS (lowerStr (keepAlnum (applyCleanups cleanups text)))).filter
    (fun w => decide (w ∉ stopw) && decide (w.length > 1))).map stem

/-- The `join=True` variant returns `" ".join(tokens)`. -/
def joinSpace (ws : List Str) : Str := List.intercalate [' '] ws

/-- `get_text` (lines 67-68): `"{} {}".format(summary, comments[0].text)`. -/
def get_text (summary comment0 : Str) : Str := summary ++ ' ' :: comment0

/-! ## Evaluation harness (`BaseSimilarity.evaluation`, lines 92-117) -/

structure EvalCounters where
  total_r : Nat
  hits_r : Nat
  total_p : Nat
  hits_p : Nat
deriving DecidableEq

/-- One iteration of the evaluation loop over `bugzilla.get_bugs()`:
skipped when `duplicates[bug.id]` is falsy (empty), otherwise the four
counters are advanced by the recall and precision inner loops. -/
def evalStep (dup : Nat → Finset Nat) (getSim : Nat → List Nat)
    (acc : EvalCounters) (bugId : Nat) : EvalCounters :=
  if (dup bugId).Nonempty then
    let sims := getSim bugId
    ⟨acc.total_r + (dup bugId).card,
     acc.hits_r + ((dup bugId).filter (fun item => item ∈ sims)).card,
     acc.total_p + sims.length,
     acc.hits_p + (sims.filter (fun e => decide (e ∈ dup bugId))).length⟩
  else acc

def evalCounters (bugIds : List Nat) (dup : Nat → Finset Nat)
    (getSim : Nat → List Nat) : EvalCounters :=
  bugIds.foldl (evalStep dup getSim) ⟨0, 0, 0, 0⟩

/-- `evaluation` (lines 92-117). The two f-strings divide by `total_r` and
`total_p`; a zero denominator raises `ZeroDivisionError`, modelled by `none`
(the recall division runs first). -/
def evaluation (bugIds : List Nat) (dup : Nat → Finset Nat)
    (getSim : Nat → List Nat) : Option (ℚ × ℚ) :=
  let c := evalCounters bugIds dup getSim
  if c.total_r = 0 then none
  else if c.total_p = 0 then none
  else some ((c.hits_r : ℚ) / (c.total_r : ℚ) * 100,
             (c.hits_p : ℚ) / (c.total_p : ℚ) * 100)

/-! ## Latent-semantic backend query (`LSISimilarity.get_similar_bugs`,
lines 150-163).  The fitted dictionary/TF-IDF/LSI/similarity state is
external; its per-query output is the score array `sims` (one cosine score
per corpus document), which is the only part of that state the ranking code
reads. -/

def lsi_get_similar_bugs (corpus : List (Nat × List Str)) (sims : List ℚ)
    (k : Nat) : List Nat :=
  let sorted := stableSort (fun a b => decide (b.2 ≤ a.2)) sims.enum
  (sorted.take k).map (fun j => (corpus.getD j.1 (0, [])).1)

/-! ## Vector-space backend query (`NeighborsSimilarity.get_similar_bugs`,
lines 180-187).  The fitted vectorizer and neighbour structure are external;
their output for the query is the index row `indices`. -/

def neighbors_get_similar_bugs (bug_ids : List Nat) (indices : List Nat)
    (query_id : Nat) : List Nat :=
  (indices.filter (fun ind => decide (bug_ids.getD ind 0 ≠ query_id))).map
    (fun ind => bug_ids.getD ind 0)

/-- The text handed to `self.vectorizer.transform` at query time
(line 182): the raw `get_text(query)`. -/
def neighbors_query_text (summary comment0 : Str) : Str :=
  get_text summary comment0

/-- Modelled from the spec: section 4.4 requires the vector-space backend to
"normalize query text" through the shared pipeline before projecting it, i.e.
the joined `text_preprocess` output of `get_text(query)` (the form the
vectorizer was fitted on).  This definition follows the spec's words; the
code's actual query text is `neighbors_query_text`. -/
def neighbors_query_text_spec (cleanups : List (Str → Str)) (stopw : List Str)
    (stem : Str → Str) (summary comment0 : Str) : Str :=
  joinSpace (text_preprocess cleanups stopw stem (get_text summary comment0))

/-! ## Word-embedding-distance backend (`Word2VecWmdSimilarity`, lines 190-315)

The trained state is `w2vmodel.wv`: the vocabulary (a word's `.index` is its
position) and the unit-normalised vectors (`vectors_norm`), both parameters
of the embedding. -/

structure W2VModel where
  vocab : List Str
  vectors : List (List ℚ)
deriving DecidableEq

def inVocab (m : W2VModel) (w : Str) : Bool := decide (w ∈ m.vocab)

def dotQ (u v : List ℚ) : ℚ := (List.zipWith (fun a b => a * b) u v).sum

def vecOf (m : W2VModel) (w : Str) : List ℚ :=
  m.vectors.getD (idxOf m.vocab w) []

/-- `all_distances` (lines 260-269): the matrix
`1 - vectors_norm . vectors_norm[[index of w for w in words]].T`, one row per
vocabulary entry, one column per query token. -/
def allDistances (m : W2VModel) (words : List Str) : List (List ℚ) :=
  m.vectors.map (fun row => words.map (fun w => 1 - dotQ row (vecOf m w)))

/-- Character comparison of Python string ordering (code points). -/
def strLt : Str → Str → Bool
  | [], [] => false
  | [], _ :: _ => true
  | _ :: _, [] => false
  | a :: as, b :: bs => if a < b then true else if b < a then false else strLt as bs

def strLe (a b : Str) : Bool := !(strLt b a)

/-- gensim `Dictionary.add_documents`/`doc2bow(allow_update=True)`: the
document's tokens that are missing from the dictionary are appended in
sorted order, each receiving the next id. -/
def dictAdd (token2id : List Str) (doc : List Str) : List Str :=
  token2id ++ stableSort strLe ((doc.filter (fun t => decide (t ∉ token2id))).dedup)

/-- The local dictionary `gensim.corpora.Dictionary(documents=[d1, d2])` of
`wmdistance`; a token's id is its position in this list. -/
def dictTokens (d1 d2 : List Str) : List Str := dictAdd (dictAdd [] d1) d2

/-- The `nbow` vector of `wmdistance` (lines 242-248): normalised term
frequency of each dictionary token in the document. -/
def nbowOf (toks : List Str) (doc : List Str) : List ℚ :=
  toks.map (fun t => (doc.count t : ℚ) / (doc.length : ℚ))

/-- The `distance_matrix` fill loop (lines 224-236, cosine branch):
`distance_matrix[i, j] = all_distances[vocab[t2].index, i]` whenever
`t1 ∈ docset1` and `t2 ∈ docset2` (note the second index is the *local
dictionary id* `i`, which the code uses as a column into the per-query-token
`all_distances` matrix). -/
def distanceMatrix (m : W2VModel) (d1 d2 : List Str) (ad : List (List ℚ)) :
    List (List ℚ) :=
  let toks := dictTokens d1 d2
  (List.range toks.length).map (fun i =>
    (List.range toks.length).map (fun j =>
      if (toks.getD i [] ∈ d1) ∧ (toks.getD j [] ∈ d2) then
        (ad.getD (idxOf m.vocab (toks.getD j [])) []).getD i 0
      else 0))

/-! ### The external `pyemd.emd` primitive

`pyemd.emd(d1, d2, C)` returns the exact minimum-cost transport (earth
mover's) distance between the two equal-mass distributions under cost
matrix `C`.  It is modelled exactly: the marginals are scaled by a common
denominator to natural numbers, every integer transport plan with those
marginals is enumerated, and the minimum cost is taken; by integrality of
the transportation polytope this equals the linear-programming optimum that
pyemd computes. -/

/-- All lists `xs` with `xs ≤ caps` pointwise and `xs.sum = total`. -/
def fills : Nat → List Nat → List (List Nat)
  | total, [] => if total = 0 then [[]] else []
  | total, c :: cs =>
    (List.range (min total c + 1)).flatMap
      (fun x => (fills (total - x) cs).map (fun r => x :: r))

/-- All matrices with row sums `sup` and column sums `dem`. -/
def plans : List Nat → List Nat → List (List (List Nat))
  | [], dem => if dem.all (fun d => d = 0) then [[]] else []
  | s :: ss, dem =>
    (fills s dem).flatMap (fun r =>
      (plans ss (List.zipWith (fun d x => d - x) dem r)).map (fun T => r :: T))

def rowDot (c : List ℚ) (t : List Nat) : ℚ :=
  (List.zipWith (fun (x : ℚ) (n : Nat) => x * (n : ℚ)) c t).sum

def planCost (C : List (List ℚ)) (T : List (List Nat)) : ℚ :=
  (List.zipWith rowDot C T).sum

/-- Minimum cost over all integer transport plans (0 if none exists). -/
def emdScaled (sup dem : List Nat) (C : List (List ℚ)) : ℚ :=
  match (plans sup dem).map (planCost C) with
  | [] => 0
  | c :: cs => cs.foldl min c

def commonDen (l : List ℚ) : Nat := l.foldl (fun a q => Nat.lcm a q.den) 1

def scaleNat (M : Nat) (q : ℚ) : Nat := (q * (M : ℚ)).num.toNat

/-- The modelled `pyemd.emd` on rational marginals. -/
def emd (d1 d2 : List ℚ) (C : List (List ℚ)) : ℚ :=
  let M := Nat.lcm (commonDen d1) (commonDen d2)
  emdScaled (d1.map (scaleNat M)) (d2.map (scaleNat M)) C / (M : ℚ)

/-- `Word2VecWmdSimilarity.wmdistance` (lines 209-253), cosine branch: the
code's adaptation of gensim's WMD that reads costs out of the per-query
`all_distances` matrix.  Returns `⊤` (inf) for an empty document or an
all-zero distance matrix. -/
def wmdistance (m : W2VModel) (document1 document2 : List Str)
    (all_distances : List (List ℚ)) : WithTop ℚ :=
  if document1 = [] ∨ document2 = [] then ⊤
  else
    let C := distanceMatrix m document1 document2 all_distances
    if (C.map List.sum).sum = 0 then ⊤
    else
      let toks := dictTokens document1 document2
      ((emd (nbowOf toks document1) (nbowOf toks document2) C : ℚ) : WithTop ℚ)

/-! ### Stage 1: relaxed-distance filter (lines 270-285) -/

/-- `np.min` of a vector: `none` models numpy's "zero-size array to reduction
operation minimum" `ValueError` on an empty axis. -/
def minList : List ℚ → Option ℚ
  | [] => none
  | x :: xs => some (xs.foldl min x)

def optSum : List (Option ℚ) → Option ℚ
  | [] => some 0
  | o :: os => o.bind (fun a => (optSum os).map (fun b => a + b))

/-- `np.sum(np.min(word_dists, axis=0))`: per query-token column minimum over
the selected rows, then summed. -/
def sumMinAxis0 (wd : List (List ℚ)) (ncols : Nat) : Option ℚ :=
  optSum ((List.range ncols).map (fun q => minList (wd.map (fun r => r.getD q 0))))

/-- `np.sum(np.min(word_dists, axis=1))`: per document-token row minimum,
then summed. -/
def sumMinAxis1 (wd : List (List ℚ)) : Option ℚ :=
  optSum (wd.map minList)

/-- The `rwmd` value (lines 278-281): the max of the two one-sided sums. -/
def rwmdOf (wd : List (List ℚ)) (ncols : Nat) : Option ℚ :=
  (sumMinAxis0 wd ncols).bind (fun a => (sumMinAxis1 wd).map (fun b => max a b))

/-- One iteration of the Stage-1 loop (lines 271-283) over corpus index `i`:
documents with no in-vocabulary words are skipped, otherwise
`(bug_ids[i], rwmd)` is appended. -/
def stage1Step (m : W2VModel) (corpus : List (List Str)) (bug_ids : List Nat)
    (ad : List (List ℚ)) (ncols : Nat) (acc : Option (List (Nat × ℚ)))
    (i : Nat) : Option (List (Nat × ℚ)) :=
  match acc with
  | none => none
  | some ds =>
    let cleaned := (corpus.getD i []).filter (inVocab m)
    let indexes := cleaned.map (idxOf m.vocab)
    if indexes = [] then some ds
    else
      match rwmdOf (indexes.map (fun idx => ad.getD idx [])) ncols with
      | none => none
      | some rw => some (ds ++ [(bug_ids.getD i 0, rw)])

def stage1 (m : W2VModel) (corpus : List (List Str)) (bug_ids : List Nat)
    (ad : List (List ℚ)) (ncols : Nat) : Option (List (Nat × ℚ)) :=
  (List.range corpus.length).foldl (stage1Step m corpus bug_ids ad ncols) (some [])

/-! ### Stage 2: exact refinement with early termination (lines 287-315) -/

/-- `bisect.bisect(confirmed_distances, wmd)` on the sorted confirmed list:
the number of confirmed values ≤ the new one. -/
def bisectRight (l : List (WithTop ℚ)) (x : WithTop ℚ) : Nat :=
  (l.takeWhile (fun d => decide (d ≤ x))).length

/-- `self.corpus[self.bug_ids.index(doc_id)]` filtered to vocabulary words
(lines 298-302). -/
def cleanedOf (m : W2VModel) (corpus : List (List Str)) (bug_ids : List Nat)
    (doc_id : Nat) : List Str :=
  (corpus.getD (idxOf bug_ids doc_id) []).filter (inVocab m)

/-- The Stage-2 loop (lines 290-307): walk candidates in ascending
lower-bound order; break once ≥ 10 exact distances are confirmed and the
candidate's bound exceeds the 10th smallest; otherwise compute the exact
distance and bisect-insert it into the two parallel confirmed lists. -/
def stage2 (m : W2VModel) (corpus : List (List Str)) (bug_ids : List Nat)
    (words : List Str) (ad : List (List ℚ)) :
    List (Nat × ℚ) → List Nat → List (WithTop ℚ) → List Nat × List (WithTop ℚ)
  | [], cids, cds => (cids, cds)
  | (doc_id, rw) :: rest, cids, cds =>
    if 10 ≤ cds.length ∧ cds.getD 9 ⊤ < ((rw : ℚ) : WithTop ℚ) then (cids, cds)
    else
      let wmd := wmdistance m words (cleanedOf m corpus bug_ids doc_id) ad
      let j := bisectRight cds wmd
      stage2 m corpus bug_ids words ad rest (insertAt j doc_id cids) (insertAt j wmd cds)

/-- A query report as the backend consumes it: its id and the token list
`text_preprocess(get_text(query))`. -/
structure QueryBug where
  id : Nat
  tokens : List Str
deriving DecidableEq

/-- `Word2VecWmdSimilarity.get_similar_bugs` (lines 255-315). -/
def w2v_get_similar_bugs (m : W2VModel) (corpus : List (List Str))
    (bug_ids : List Nat) (query : QueryBug) : Option (List Nat) :=
  let words := query.tokens.filter (inVocab m)
  let ad := allDistances m words
  match stage1 m corpus bug_ids ad words.length with
  | none => none
  | some distances0 =>
    let distances := stableSort (fun a b => decide (a.2 ≤ b.2)) distances0
    let p := stage2 m corpus bug_ids words ad distances [] []
    let similarities := List.zip p.1 p.2
    some ((((stableSort (fun a b => decide (a.2 ≤ b.2)) similarities).take 10).filter
      (fun s => decide (s.1 ≠ query.id))).map Prod.fst)

/-- Modelled from the spec (section 8, "Top-k correctness"): the brute-force
ranking computes the exact transport distance for every candidate and takes
the ten best.  Per the spec's Stage-1 sentence, documents with zero
in-vocabulary words are "excluded from consideration"; ties are broken by
corpus insertion order (stable sort), and the query's own identifier is
excluded as in the spec's Result sentence. -/
def bruteForceTop10 (m : W2VModel) (corpus : List (List Str))
    (bug_ids : List Nat) (query : QueryBug) : List Nat :=
  let words := query.tokens.filter (inVocab m)
  let ad := allDistances m words
  let cands := (List.range corpus.length).filterMap (fun i =>
    let cleaned := (corpus.getD i []).filter (inVocab m)
    if cleaned = [] then none
    else some (bug_ids.getD i 0, wmdistance m words cleaned ad))
  (((stableSort (fun a b => decide (a.2 ≤ b.2)) cands).take 10).filter
    (fun s => decide (s.1 ≠ query.id))).map Prod.fst

/-! ## Claim C1: no self-match -/

/-- Counterexample to C1.  The latent-semantic backend
(`LSISimilarity.get_similar_bugs`, lines 150-163) applies no filter on the
query's own identifier.  With a two-document corpus and the similarity
index's scores for a query that is corpus document 1 itself (its own LSI
vector has cosine similarity 1, the other document 1/2), the returned
ranking contains the query's identifier 1. -/
theorem C1_counterexample :
    1 ∈ lsi_get_similar_bugs [(1, [strOf "aa"]), (2, [strOf "bb"])] [1, 1/2] 10 := by
  with_unfolding_all decide

/-- Claim C1 amended: the vector-space backend and the
word-embedding-distance backend never return the query report's identifier
(both filter it explicitly); the latent-semantic backend has no such
filter. -/
theorem C1_amended :
    (∀ (bug_ids indices : List Nat) (query_id : Nat),
        query_id ∉ neighbors_get_similar_bugs bug_ids indices query_id) ∧
    (∀ (m : W2VModel) (corpus : List (List Str)) (bug_ids : List Nat)
        (query : QueryBug),
        query.id ∉ (w2v_get_similar_bugs m corpus bug_ids query).getD []) := by
  constructor
  · intro bug_ids indices query_id h
    unfold neighbors_get_similar_bugs at h
    rw [List.mem_map] at h
    obtain ⟨ind, hmem, he⟩ := h
    rw [List.mem_filter] at hmem
    have h2 := hmem.2
    rw [decide_eq_true_eq] at h2
    exact h2 he
  · intro m corpus bug_ids query h
    simp only [w2v_get_similar_bugs] at h
    split at h
    · simp at h
    · simp only [Option.getD_some] at h
      rw [List.mem_map] at h
      obtain ⟨s, hs, he⟩ := h
      rw [List.mem_filter] at hs
      have h2 := hs.2
      rw [decide_eq_true_eq] at h2
      exact h2 he

/-! ## Claim C2 and C3 counterexample instances.

The embedding model: three vocabulary words with rational unit vectors,
cosine distance d(aa,bb) = 2/5, d(aa,cc) = 18/25. -/

def c2Model : W2VModel :=
  ⟨[strOf "aa", strOf "bb", strOf "cc"], [[1, 0], [3/5, 4/5], [7/25, 24/25]]⟩

def c2Corpus : List (List Str) :=
  [[strOf "bb", strOf "bb", strOf "bb", strOf "bb"],
   [strOf "cc"], [strOf "cc"], [strOf "cc"], [strOf "cc"], [strOf "cc"],
   [strOf "cc"], [strOf "cc"], [strOf "cc"], [strOf "cc"], [strOf "cc"]]

def c2Ids : List Nat := [1, 2, 3, 4, 5, 6, 7, 8, 9, 10, 11]

def c2Query : QueryBug := ⟨100, [strOf "aa"]⟩

/-- Counterexample to C2.  Candidate 1 (four copies of `bb`) has the
strictly smallest exact transport distance (2/5, versus 18/25 for every
other candidate), but its Stage-1 relaxed value is the unnormalised sum
4·(2/5) = 8/5, so after the ten `cc` candidates are confirmed at 18/25 the
early-termination rule prunes it: the filter-then-refine top-10 misses the
best candidate and differs from the brute-force top-10. -/
theorem C2_counterexample :
    w2v_get_similar_bugs c2Model c2Corpus c2Ids c2Query =
      some [2, 3, 4, 5, 6, 7, 8, 9, 10, 11] ∧
    bruteForceTop10 c2Model c2Corpus c2Ids c2Query =
      [1, 2, 3, 4, 5, 6, 7, 8, 9, 10] ∧
    w2v_get_similar_bugs c2Model c2Corpus c2Ids c2Query ≠
      some (bruteForceTop10 c2Model c2Corpus c2Ids c2Query) := by
  refine ⟨by with_unfolding_all rfl, by with_unfolding_all rfl, ?_⟩
  rw [show w2v_get_similar_bugs c2Model c2Corpus c2Ids c2Query =
      some [2, 3, 4, 5, 6, 7, 8, 9, 10, 11] from by with_unfolding_all rfl,
    show bruteForceTop10 c2Model c2Corpus c2Ids c2Query =
      [1, 2, 3, 4, 5, 6, 7, 8, 9, 10] from by with_unfolding_all rfl]
  decide

def c3Model : W2VModel := ⟨[strOf "aa", strOf "bb"], [[1, 0], [3/5, 4/5]]⟩

def c3Words : List Str := [strOf "aa", strOf "aa"]

def c3Ad : List (List ℚ) := allDistances c3Model c3Words

/-- Counterexample to C3.  Query tokens `[aa, aa]`, candidate document
`[bb]`, both fully in-vocabulary with d(aa,bb) = 2/5.  The Stage-1 relaxed
value is max(2/5 + 2/5, 2/5) = 4/5 (the query-side sum counts the token
twice), while the Stage-2 exact transport distance is 2/5: the relaxed
value exceeds the exact distance. -/
theorem C3_counterexample :
    c3Words.filter (inVocab c3Model) = c3Words ∧
    [strOf "bb"].filter (inVocab c3Model) = [strOf "bb"] ∧
    rwmdOf (([strOf "bb"].map (idxOf c3Model.vocab)).map
        (fun idx => c3Ad.getD idx [])) c3Words.length = some (4/5) ∧
    wmdistance c3Model c3Words [strOf "bb"] c3Ad = ((2/5 : ℚ) : WithTop ℚ) ∧
    ¬ ((4/5 : ℚ) ≤ (2/5 : ℚ)) := by
  refine ⟨by with_unfolding_all rfl, by with_unfolding_all rfl,
    by with_unfolding_all rfl, by with_unfolding_all rfl,
    by with_unfolding_all decide⟩

/-! ## Claim C5 / C6 counterexample instances -/

def c5BugA : Bug := ⟨1, strOf "alice", [], [], none⟩

def c5BugB : Bug := ⟨2, strOf "wptsync@mozilla.bugs", [], [1], none⟩

/-- Counterexample to C5.  Bug 2's creator is in the ignore list, yet after
construction its identifier appears both in the value set of bug 1 and as a
key of the index: the eligibility filter is applied only to the *referenced*
ids, and the `defaultdict` access creates a key for every processed bug. -/
theorem C5_counterexample :
    eligibleBug c5BugB = false ∧
    2 ∈ ddGet (duplicates [c5BugA, c5BugB]) 1 ∧
    (duplicates [c5BugA, c5BugB]).lookup 2 = some {1} := by
  refine ⟨by decide, by decide, by decide⟩

def c6Bug : Bug := ⟨7, strOf "alice", [], [], none⟩

/-- Counterexample to C6.  Bug 7 has no duplicate references in either
direction, yet after construction it has an entry: the `defaultdict` access
`duplicates[bug.id].update(dupes)` creates the key and maps it to the empty
set, not an absent key. -/
theorem C6_counterexample :
    dupesOf [c6Bug] c6Bug = [] ∧
    (duplicates [c6Bug]).lookup 7 = some ∅ := by
  refine ⟨by decide, by decide⟩

/-! ## Claim C7: all-out-of-vocabulary query -/

def c7Model : W2VModel := ⟨[strOf "aa"], [[1]]⟩

/-- Claim C7 (code bug): for a query whose tokens are all absent from the
vocabulary the in-vocabulary list is empty, and against a corpus containing
an in-vocabulary document `get_similar_bugs` raises (the `np.min` reduction
over the empty query axis has no identity), modelled by `none` — instead of
returning an empty result as the spec requires. -/
theorem C7_oov_query_raises :
    ([strOf "zz"].filter (inVocab c7Model) = []) ∧
    w2v_get_similar_bugs c7Model [[strOf "aa"]] [1] ⟨5, [strOf "zz"]⟩ = none := by
  refine ⟨by with_unfolding_all rfl, by with_unfolding_all rfl⟩

/-! ## Claim C8: zero denominators in the evaluation harness -/

/-- Counterexample to C8.  With a single bug that has no known duplicates,
no query is ever made, `total_r = 0`, and the recall f-string raises
`ZeroDivisionError` (modelled `none`): the division error propagates instead
of a degenerate-result report. -/
theorem C8_counterexample :
    evaluation [1] (fun _ => ∅) (fun _ => []) = none := by rfl

/-- Claim C8 amended: the evaluation harness raises an uncaught
`ZeroDivisionError` (result `none`) exactly when one of the two aggregate
denominators is zero; it neither reports a degenerate condition nor yields
zero. -/
theorem C8_amended :
    ∀ (bugIds : List Nat) (dup : Nat → Finset Nat) (getSim : Nat → List Nat),
      evaluation bugIds dup getSim = none ↔
        (evalCounters bugIds dup getSim).total_r = 0 ∨
        (evalCounters bugIds dup getSim).total_p = 0 := by
  intro bugIds dup getSim
  simp only [evaluation]
  by_cases h1 : (evalCounters bugIds dup getSim).total_r = 0
  · simp [h1]
  · by_cases h2 : (evalCounters bugIds dup getSim).total_p = 0
    · simp [h1, h2]
    · simp [h1, h2]

/-! ## Claim C10: the vector-space backend's query text -/

/-- Claim C10 (code bug): the query path of the vector-space backend
(line 182) hands `get_text(query)` to the fitted vectorizer as-is, without
the shared normalization pipeline the corpus was fitted on; on a query whose
raw text differs from its normalized text the two disagree. -/
theorem C10_query_not_normalized :
    neighbors_query_text (strOf "Crash") (strOf "Now!") ≠
      neighbors_query_text_spec [] [] (fun w => w) (strOf "Crash") (strOf "Now!") := by
  decide

/-! ## Ground-truth index lemmas -/

theorem mem_ite_finset {p : Prop} [Decidable p] {s : Finset Nat} {a : Nat} :
    (a ∈ if p then s else ∅) ↔ p ∧ a ∈ s := by
  by_cases hp : p <;> simp [hp]

theorem ddGet_addToKey (m : List (Nat × Finset Nat)) (k : Nat) (s : Finset Nat)
    (x : Nat) :
    ddGet (addToKey m k s) x = if x = k then ddGet m x ∪ s else ddGet m x := by
  induction m with
  | nil =>
    by_cases hx : x = k
    · have e1 : (x == k) = true := beq_iff_eq.mpr hx
      simp [addToKey, ddGet, List.lookup, e1, hx]
    · have e1 : (x == k) = false := by simp [hx]
      simp [addToKey, ddGet, List.lookup, e1, hx]
  | cons p rest ih =>
    obtain ⟨k1, s1⟩ := p
    by_cases h1 : k1 = k
    · subst h1
      by_cases hx : x = k1
      · have e1 : (x == k1) = true := beq_iff_eq.mpr hx
        simp [addToKey, ddGet, List.lookup, e1, hx]
      · have e1 : (x == k1) = false := by simp [hx]
        simp [addToKey, ddGet, List.lookup, e1, hx]
    · by_cases hx : x = k1
      · subst hx
        have e1 : (x == x) = true := beq_iff_eq.mpr rfl
        simp [addToKey, h1, ddGet, List.lookup, e1]
      · have e1 : (x == k1) = false := by simp [hx]
        simp only [addToKey, h1, if_false]
        simp only [ddGet, List.lookup, e1]
        exact ih

theorem lookup_addToKey (m : List (Nat × Finset Nat)) (k : Nat) (s : Finset Nat)
    (x : Nat) :
    (addToKey m k s).lookup x =
      if x = k then some (ddGet m k ∪ s) else m.lookup x := by
  induction m with
  | nil =>
    by_cases hx : x = k
    · have e1 : (x == k) = true := beq_iff_eq.mpr hx
      simp [addToKey, ddGet, List.lookup, e1, hx]
    · have e1 : (x == k) = false := by simp [hx]
      simp [addToKey, ddGet, List.lookup, e1, hx]
  | cons p rest ih =>
    obtain ⟨k1, s1⟩ := p
    by_cases h1 : k1 = k
    · subst h1
      by_cases hx : x = k1
      · have e1 : (x == k1) = true := beq_iff_eq.mpr hx
        have e2 : (k1 == k1) = true := beq_iff_eq.mpr rfl
        simp [addToKey, ddGet, List.lookup, e1, e2, hx]
      · have e1 : (x == k1) = false := by simp [hx]
        simp [addToKey, ddGet, List.lookup, e1, hx]
    · by_cases hx : x = k1
      · subst hx
        have e1 : (x == x) = true := beq_iff_eq.mpr rfl
        simp [addToKey, h1, List.lookup, e1]
      · have e1 : (x == k1) = false := by simp [hx]
        by_cases hxk : x = k
        · subst hxk
          have hg : ddGet ((k1, s1) :: rest) x = ddGet rest x := by
            simp [ddGet, List.lookup, e1]
          simp only [addToKey, h1, if_false, List.lookup, e1, ih, if_true, hg]
        · simp only [addToKey, h1, if_false, List.lookup, e1, ih, hxk, if_false]

theorem ddGet_foldl_add (ds : List Nat) (i : Nat) :
    ∀ (m : List (Nat × Finset Nat)) (x : Nat),
      ddGet (ds.foldl (fun m2 d => addToKey m2 d {i}) m) x =
        ddGet m x ∪ (if x ∈ ds then {i} else ∅) := by
  induction ds with
  | nil => intro m x; simp
  | cons d ds ih =>
    intro m x
    simp only [List.foldl_cons, ih, ddGet_addToKey]
    by_cases hxd : x = d
    · subst hxd
      by_cases hds : x ∈ ds <;>
        simp [hds, Finset.union_assoc, Finset.union_self]
    · by_cases hds : x ∈ ds <;>
        simp [hxd, hds]

theorem lookup_foldl_add (ds : List Nat) (i j : Nat) (hnot : i ∉ ds) :
    ∀ (m : List (Nat × Finset Nat)),
      (ds.foldl (fun m2 d => addToKey m2 d {j}) m).lookup i = m.lookup i := by
  induction ds with
  | nil => intro m; rfl
  | cons d ds ih =>
    intro m
    have hid : i ≠ d := fun h => hnot (h ▸ List.mem_cons_self d ds)
    have hds : i ∉ ds := fun h => hnot (List.mem_cons_of_mem d h)
    simp only [List.foldl_cons, ih hds, lookup_addToKey, hid, if_false]

theorem ddGet_dupStep (bugs : List Bug) (m : List (Nat × Finset Nat)) (b : Bug)
    (x : Nat) :
    ddGet (dupStep bugs m b) x =
      ddGet m x ∪ (if x = b.id then (dupesOf bugs b).toFinset else ∅) ∪
        (if x ∈ dupesOf bugs b then {b.id} else ∅) := by
  simp only [dupStep, ddGet_foldl_add, ddGet_addToKey]
  by_cases h1 : x = b.id <;> by_cases h2 : x ∈ dupesOf bugs b <;>
    simp [h1, h2]

theorem symm_dupStep (bugs : List Bug) (m : List (Nat × Finset Nat)) (bg : Bug)
    (h : ∀ a b, a ∈ ddGet m b ↔ b ∈ ddGet m a) :
    ∀ a b, a ∈ ddGet (dupStep bugs m bg) b ↔ b ∈ ddGet (dupStep bugs m bg) a := by
  intro a b
  simp only [ddGet_dupStep, Finset.mem_union, mem_ite_finset, List.mem_toFinset,
    Finset.mem_singleton]
  rw [h a b]
  tauto

/-- Claim C4: for all report identifiers A and B, after ground-truth
construction the index is symmetric: B is in the duplicate set of A iff A is
in the duplicate set of B.  Every insertion of the construction loop adds
both directions at once. -/
theorem C4_ground_truth_symmetric :
    ∀ (bugs : List Bug) (a b : Nat),
      a ∈ ddGet (duplicates bugs) b ↔ b ∈ ddGet (duplicates bugs) a := by
  intro bugs
  have main : ∀ (l : List Bug) (m : List (Nat × Finset Nat)),
      (∀ a b, a ∈ ddGet m b ↔ b ∈ ddGet m a) →
      ∀ a b, a ∈ ddGet (l.foldl (dupStep bugs) m) b ↔
        b ∈ ddGet (l.foldl (dupStep bugs) m) a := by
    intro l
    induction l with
    | nil => intro m h; exact h
    | cons bg l ih =>
      intro m h
      exact ih (dupStep bugs m bg) (symm_dupStep bugs m bg h)
  exact main bugs [] (fun a b => by simp [ddGet, List.lookup])

theorem dupesOf_subset_all_ids (bugs : List Bug) (b : Bug) (x : Nat)
    (hx : x ∈ dupesOf bugs b) : x ∈ all_ids bugs := by
  simp only [dupesOf, List.mem_append, List.mem_filter, decide_eq_true_eq] at hx
  rcases hx with ⟨-, h⟩ | h
  · exact h
  · rcases hdo : b.dupe_of with _ | d
    · rw [hdo] at h; simp at h
    · rw [hdo] at h
      by_cases hd : d ∈ all_ids bugs
      · simp only [hd, if_true, List.mem_singleton] at h
        exact h ▸ hd
      · simp [hd] at h

/-- Claim C5 amended: an ineligible report (ignored creator or `dupeme`
keyword) never enters the index through other reports' references to it —
if, in addition, its own reference list (after eligibility filtering) is
empty, its identifier appears in no value set of the index.  (It still
appears as a key with an empty value set: the defaultdict access creates an
entry for every processed report, as the counterexample shows.) -/
theorem C5_amended :
    ∀ (bugs : List Bug) (i : Nat),
      i ∉ all_ids bugs →
      (∀ b ∈ bugs, b.id = i → dupesOf bugs b = []) →
      ∀ k, i ∉ ddGet (duplicates bugs) k := by
  intro bugs i h1 h2
  have main : ∀ (l : List Bug), (∀ b ∈ l, b ∈ bugs) →
      ∀ (m : List (Nat × Finset Nat)), (∀ k, i ∉ ddGet m k) →
      ∀ k, i ∉ ddGet (l.foldl (dupStep bugs) m) k := by
    intro l
    induction l with
    | nil => intro _ m h k; exact h k
    | cons bg l ih =>
      intro hsub m hm
      refine ih (fun b hb => hsub b (List.mem_cons_of_mem bg hb))
        (dupStep bugs m bg) ?_
      intro k hk
      simp only [ddGet_dupStep, Finset.mem_union, mem_ite_finset,
        List.mem_toFinset, Finset.mem_singleton] at hk
      rcases hk with (hk | ⟨-, hk⟩) | ⟨hkmem, hk⟩
      · exact hm k hk
      · exact h1 (dupesOf_subset_all_ids bugs bg i hk)
      · have hds : dupesOf bugs bg = [] :=
          h2 bg (hsub bg (List.mem_cons_self bg l)) hk.symm
        rw [hds] at hkmem
        simp at hkmem
  exact main bugs (fun b hb => hb) [] (fun k => by simp [ddGet, List.lookup])

theorem dupStep_lookup_none_or_empty (bugs : List Bug) (i : Nat) (b : Bug)
    (hb2 : b.id = i → dupesOf bugs b = []) (hb3 : i ∉ dupesOf bugs b)
    (m : List (Nat × Finset Nat)) :
    (dupStep bugs m b).lookup i =
      if b.id = i then some (ddGet m i) else m.lookup i := by
  simp only [dupStep, lookup_foldl_add _ _ _ hb3, lookup_addToKey]
  by_cases hbi : b.id = i
  · simp [hbi, hb2 hbi]
  · have hib : ¬ i = b.id := fun h => hbi h.symm
    simp [hbi, hib]

/-- Claim C6 amended: a report that occurs in the corpus and has no
duplicate references in either direction (after eligibility filtering) has
an entry in the constructed index, and that entry is the empty set — an
empty-set-valued key, not an absent key.  (The evaluation caller tests
truthiness, so it treats the two identically.) -/
theorem C6_amended :
    ∀ (bugs : List Bug) (i : Nat),
      (∃ b ∈ bugs, b.id = i) →
      (∀ b ∈ bugs, b.id = i → dupesOf bugs b = []) →
      (∀ b ∈ bugs, i ∉ dupesOf bugs b) →
      (duplicates bugs).lookup i = some ∅ := by
  intro bugs i hex h2 h3
  have hstable : ∀ (l : List Bug), (∀ b ∈ l, b ∈ bugs) →
      ∀ (m : List (Nat × Finset Nat)), m.lookup i = some ∅ →
      (l.foldl (dupStep bugs) m).lookup i = some ∅ := by
    intro l
    induction l with
    | nil => intro _ m h; exact h
    | cons bg l ih =>
      intro hsub m hm
      refine ih (fun b hb => hsub b (List.mem_cons_of_mem bg hb))
        (dupStep bugs m bg) ?_
      have hbg := hsub bg (List.mem_cons_self bg l)
      rw [dupStep_lookup_none_or_empty bugs i bg (h2 bg hbg) (h3 bg hbg) m]
      by_cases hbi : bg.id = i
      · simp [hbi, ddGet, hm]
      · simp [hbi, hm]
  have main : ∀ (l : List Bug), (∀ b ∈ l, b ∈ bugs) →
      ∀ (m : List (Nat × Finset Nat)),
      (m.lookup i = none ∨ m.lookup i = some ∅) →
      (∃ b ∈ l, b.id = i) →
      (l.foldl (dupStep bugs) m).lookup i = some ∅ := by
    intro l
    induction l with
    | nil => intro _ m _ hex2; simp at hex2
    | cons bg l ih =>
      intro hsub m hm hex2
      have hbg := hsub bg (List.mem_cons_self bg l)
      have hstep := dupStep_lookup_none_or_empty bugs i bg (h2 bg hbg) (h3 bg hbg) m
      by_cases hbi : bg.id = i
      · refine hstable l (fun b hb => hsub b (List.mem_cons_of_mem bg hb))
          (dupStep bugs m bg) ?_
        rw [hstep]
        rcases hm with hm | hm <;> simp [hbi, ddGet, hm]
      · rcases hex2 with ⟨b, hb, hbid⟩
        rcases List.mem_cons.mp hb with hbb | hbl
        · exact absurd (hbb ▸ hbid) hbi
        · refine ih (fun b hb => hsub b (List.mem_cons_of_mem bg hb))
            (dupStep bugs m bg) ?_ ⟨b, hbl, hbid⟩
          rw [hstep, if_neg hbi]
          exact hm
  exact main bugs (fun b hb => hb) [] (Or.inl rfl) hex

def c5wA : Bug := ⟨1, strOf "alice", [], [], none⟩

def c5wB : Bug := ⟨3, strOf "wptsync@mozilla.bugs", [], [], none⟩

theorem C5_amended_witness :
    (3 ∉ all_ids [c5wA, c5wB]) ∧
    (∀ b ∈ [c5wA, c5wB], b.id = 3 → dupesOf [c5wA, c5wB] b = []) ∧
    (∀ k, 3 ∉ ddGet (duplicates [c5wA, c5wB]) k) :=
  ⟨by decide, by decide, C5_amended [c5wA, c5wB] 3 (by decide) (by decide)⟩

def c6w : Bug := ⟨1, strOf "alice", [], [], none⟩

theorem C6_amended_witness :
    (∃ b ∈ [c6w], b.id = 1) ∧
    (∀ b ∈ [c6w], b.id = 1 → dupesOf [c6w] b = []) ∧
    (∀ b ∈ [c6w], 1 ∉ dupesOf [c6w] b) ∧
    (duplicates [c6w]).lookup 1 = some ∅ :=
  ⟨by decide, by decide, by decide,
    C6_amended [c6w] 1 (by decide) (by decide) (by decide)⟩

/-! ## Idempotence of the normalization pipeline (claim C9) -/

theorem map_eq_self (l : List α) (f : α → α) (h : ∀ c ∈ l, f c = c) :
    l.map f = l := by
  induction l with
  | nil => rfl
  | cons a l ih =>
    simp only [List.map_cons, h a (List.mem_cons_self a l),
      ih (fun c hc => h c (List.mem_cons_of_mem _ hc))]

theorem not_ws_of_alnum (c : Char) (h : c.isAlphanum = true) :
    c.isWhitespace = false := by
  cases hb : c.isWhitespace
  · rfl
  · exfalso
    have h4 : c = ' ' ∨ c = '\t' ∨ c = '\r' ∨ c = '\n' := by
      simpa [Char.isWhitespace, Bool.or_eq_true, decide_eq_true_eq, or_assoc] using hb
    rcases h4 with h4 | h4 | h4 | h4 <;> subst h4 <;> exact absurd h (by decide)

theorem splitGroups_cons (c : Char) (s : Str) :
    splitGroups (c :: s) =
      if c.isWhitespace then [] :: splitGroups s
      else
        match splitGroups s with
        | [] => [[c]]
        | g :: gs => (c :: g) :: gs := rfl

theorem splitGroups_append_token (t s : Str) (hne : t ≠ [])
    (hnw : ∀ c ∈ t, c.isWhitespace = false) :
    splitGroups (t ++ s) =
      (t ++ (splitGroups s).headD []) :: (splitGroups s).tail := by
  induction t with
  | nil => exact absurd rfl hne
  | cons c t2 ih =>
    have hc : c.isWhitespace = false := hnw c (List.mem_cons_self c t2)
    by_cases h2 : t2 = []
    · subst h2
      rw [List.cons_append, List.nil_append, splitGroups_cons, if_neg (by simp [hc])]
      cases hsg : splitGroups s with
      | nil => simp
      | cons g gs => simp
    · rw [List.cons_append, splitGroups_cons,
        ih h2 (fun d hd => hnw d (List.mem_cons_of_mem c hd)), if_neg (by simp [hc])]
      simp

theorem intercalate_cons2 (t t2 : Str) (rest : List Str) :
    List.intercalate [' '] (t :: t2 :: rest) =
      t ++ ' ' :: List.intercalate [' '] (t2 :: rest) := by
  simp [List.intercalate, List.intersperse]

theorem splitWS_joinSpace (ts : List Str)
    (h : ∀ t ∈ ts, t ≠ [] ∧ ∀ c ∈ t, c.isWhitespace = false) :
    splitWS (joinSpace ts) = ts := by
  induction ts with
  | nil => rfl
  | cons t ts ih =>
    obtain ⟨hne, hnw⟩ := h t (List.mem_cons_self t ts)
    have hemp : t.isEmpty = false := by
      cases t
      · exact absurd rfl hne
      · rfl
    cases ts with
    | nil =>
      have hj : joinSpace [t] = t := by simp [joinSpace, List.intercalate]
      rw [hj, splitWS]
      have hsg := splitGroups_append_token t [] hne hnw
      rw [List.append_nil] at hsg
      rw [show splitGroups ([] : Str) = [] from rfl] at hsg
      simp only [List.headD, List.tail, List.append_nil] at hsg
      rw [hsg, List.filter_cons_of_pos (by simp [hemp])]
      rfl
    | cons t2 rest =>
      rw [joinSpace, intercalate_cons2]
      have hsg := splitGroups_append_token t
        (' ' :: List.intercalate [' '] (t2 :: rest)) hne hnw
      rw [splitGroups_cons, if_pos (by decide)] at hsg
      simp only [List.headD, List.tail, List.append_nil] at hsg
      rw [splitWS, hsg]
      rw [List.filter_cons_of_pos (by simp [hemp])]
      have ihr := ih (fun u hu => h u (List.mem_cons_of_mem t hu))
      rw [joinSpace] at ihr
      rw [show (List.filter (fun g => !g.isEmpty)
        (splitGroups (List.intercalate [' '] (t2 :: rest)))) =
          splitWS (List.intercalate [' '] (t2 :: rest)) from rfl, ihr]

theorem mem_joinSpace (ts : List Str) (c : Char) (hc : c ∈ joinSpace ts) :
    c = ' ' ∨ ∃ t ∈ ts, c ∈ t := by
  induction ts with
  | nil => simp [joinSpace, List.intercalate] at hc
  | cons t ts ih =>
    cases ts with
    | nil =>
      right
      refine ⟨t, List.mem_cons_self t [], ?_⟩
      simpa [joinSpace, List.intercalate] using hc
    | cons t2 rest =>
      rw [joinSpace, intercalate_cons2] at hc
      rcases List.mem_append.mp hc with h | h
      · exact Or.inr ⟨t, List.mem_cons_self t _, h⟩
      · rcases List.mem_cons.mp h with h | h
        · exact Or.inl h
        · rcases ih (by rw [joinSpace]; exact h) with h | ⟨u, hu, hcu⟩
          · exact Or.inl h
          · exact Or.inr ⟨u, List.mem_cons_of_mem t hu, hcu⟩

/-- Claim C9: the normalization pipeline is idempotent on its own output —
normalizing the space-joined result of a normalization returns the same
token sequence — provided the external collaborators meet their contracts:
the cleanup chain fixes the already-normalized string, and the stemmer
produces idempotent stems that are lowercase alphanumeric, longer than one
character and not stopwords.  The in-scope pipeline steps (non-alphanumeric
stripping, lowercasing, whitespace splitting, filtering) introduce no
non-idempotence. -/
theorem C9_normalize_idempotent (cleanups : List (Str → Str)) (stopw : List Str)
    (stem : Str → Str) (text : Str)
    (hclean : applyCleanups cleanups
        (joinSpace (text_preprocess cleanups stopw stem text)) =
      joinSpace (text_preprocess cleanups stopw stem text))
    (hstem : ∀ w, stem (stem w) = stem w)
    (halnum : ∀ w c, c ∈ stem w → c.isAlphanum = true ∧ c.toLower = c)
    (hstop : ∀ w, stem w ∉ stopw)
    (hlen : ∀ w, (stem w).length > 1) :
    text_preprocess cleanups stopw stem
        (joinSpace (text_preprocess cleanups stopw stem text)) =
      text_preprocess cleanups stopw stem text := by
  set ts := text_preprocess cleanups stopw stem text with hts
  have htok : ∀ t ∈ ts, (t ≠ [] ∧ ∀ c ∈ t, c.isWhitespace = false) ∧
      (∀ c ∈ t, c.isAlphanum = true ∧ c.toLower = c) ∧
      t ∉ stopw ∧ t.length > 1 := by
    intro t ht
    have hex : ∃ w, t = stem w := by
      rw [hts, text_preprocess] at ht
      obtain ⟨w, -, hw⟩ := List.mem_map.mp ht
      exact ⟨w, hw.symm⟩
    obtain ⟨w, rfl⟩ := hex
    refine ⟨⟨?_, ?_⟩, halnum w, hstop w, hlen w⟩
    · intro hnil
      have := hlen w
      rw [hnil] at this
      simp at this
    · intro c hc
      exact not_ws_of_alnum c (halnum w c hc).1
  conv_lhs => rw [text_preprocess]
  rw [hclean]
  have hkeep : keepAlnum (joinSpace ts) = joinSpace ts := by
    apply map_eq_self
    intro c hc
    rcases mem_joinSpace ts c hc with rfl | ⟨t, ht, hct⟩
    · decide
    · simp [((htok t ht).2.1 c hct).1]
  rw [hkeep]
  have hlower : lowerStr (joinSpace ts) = joinSpace ts := by
    apply map_eq_self
    intro c hc
    rcases mem_joinSpace ts c hc with rfl | ⟨t, ht, hct⟩
    · decide
    · exact ((htok t ht).2.1 c hct).2
  rw [hlower]
  rw [splitWS_joinSpace ts (fun t ht => (htok t ht).1)]
  have hfilter : ts.filter
      (fun w => decide (w ∉ stopw) && decide (w.length > 1)) = ts := by
    apply List.filter_eq_self.mpr
    intro t ht
    have h := htok t ht
    simp [h.2.2.1, h.2.2.2]
  rw [hfilter]
  rw [hts, text_preprocess, List.map_map]
  apply List.map_congr_left
  intro a _
  simp only [Function.comp_apply]
  exact hstem a

def c9Stem : Str → Str := fun _ => strOf "xx"

theorem C9_witness :
    (applyCleanups []
        (joinSpace (text_preprocess [] [strOf "the"] c9Stem (strOf "ab cd"))) =
      joinSpace (text_preprocess [] [strOf "the"] c9Stem (strOf "ab cd"))) ∧
    text_preprocess [] [strOf "the"] c9Stem
        (joinSpace (text_preprocess [] [strOf "the"] c9Stem (strOf "ab cd"))) =
      text_preprocess [] [strOf "the"] c9Stem (strOf "ab cd") :=
  ⟨rfl, C9_normalize_idempotent [] [strOf "the"] c9Stem (strOf "ab cd") rfl
    (fun _ => rfl)
    (fun w c hc => by
      simp only [c9Stem, strOf] at hc
      have h2 : c = 'x' ∨ c = 'x' := by simpa using hc
      rcases h2 with h2 | h2 <;> subst h2 <;> exact ⟨by decide, by decide⟩)
    (fun w => by show strOf "xx" ∉ [strOf "the"]; decide)
    (fun w => by show (strOf "xx").length > 1; decide)⟩

/-! ## Transport-plan lemmas (for the lower-bound analysis of claim C3) -/

theorem mem_fills : ∀ (caps : List Nat) (total : Nat) (r : List Nat),
    r ∈ fills total caps →
    r.length = caps.length ∧ r.sum = total ∧ ∀ j, r.getD j 0 ≤ caps.getD j 0 := by
  intro caps
  induction caps with
  | nil =>
    intro total r hr
    simp only [fills] at hr
    by_cases h0 : total = 0
    · rw [if_pos h0] at hr
      simp only [List.mem_singleton] at hr
      subst hr
      exact ⟨rfl, h0.symm, fun j => Nat.le_refl _⟩
    · rw [if_neg h0] at hr
      simp at hr
  | cons c cs ih =>
    intro total r hr
    simp only [fills, List.mem_flatMap, List.mem_map, List.mem_range] at hr
    obtain ⟨x, hx, r2, hr2, rfl⟩ := hr
    obtain ⟨hlen, hsum, hcap⟩ := ih (total - x) r2 hr2
    have hxle : x ≤ min total c := Nat.lt_succ_iff.mp hx
    refine ⟨by simp [hlen], ?_, ?_⟩
    · have hxt : x ≤ total := le_trans hxle (Nat.min_le_left _ _)
      simp only [List.sum_cons, hsum]
      omega
    · intro j
      cases j with
      | zero =>
        simpa using le_trans hxle (Nat.min_le_right _ _)
      | succ j => simpa using hcap j

theorem fills_nonempty : ∀ (caps : List Nat) (total : Nat),
    total ≤ caps.sum → ∃ r, r ∈ fills total caps := by
  intro caps
  induction caps with
  | nil =>
    intro total h
    simp only [List.sum_nil, Nat.le_zero] at h
    exact ⟨[], by simp [fills, h]⟩
  | cons c cs ih =>
    intro total h
    simp only [List.sum_cons] at h
    obtain ⟨r2, hr2⟩ := ih (total - min total c) (by omega)
    refine ⟨min total c :: r2, ?_⟩
    simp only [fills, List.mem_flatMap, List.mem_map, List.mem_range]
    exact ⟨min total c, Nat.lt_succ_self _, r2, hr2, rfl⟩

theorem getD_zipWith_sub (dem r : List Nat) (hlen : r.length = dem.length) :
    ∀ j, (List.zipWith (fun d x => d - x) dem r).getD j 0 =
      dem.getD j 0 - r.getD j 0 := by
  induction dem generalizing r with
  | nil =>
    intro j
    cases r with
    | nil => simp
    | cons a r => simp at hlen
  | cons d dem ih =>
    intro j
    cases r with
    | nil => simp at hlen
    | cons x r =>
      cases j with
      | zero => simp
      | succ j =>
        simp only [List.zipWith_cons_cons, List.getD_cons_succ]
        exact ih r (by simpa using hlen) j

theorem length_zipWith_sub (dem r : List Nat) (hlen : r.length = dem.length) :
    (List.zipWith (fun d x => d - x) dem r).length = dem.length := by
  simp [List.length_zipWith, hlen]

theorem sum_zipWith_sub (dem r : List Nat) (hlen : r.length = dem.length)
    (hle : ∀ j, r.getD j 0 ≤ dem.getD j 0) :
    (List.zipWith (fun d x => d - x) dem r).sum = dem.sum - r.sum := by
  induction dem generalizing r with
  | nil =>
    cases r with
    | nil => simp
    | cons a r => simp at hlen
  | cons d dem ih =>
    cases r with
    | nil => simp at hlen
    | cons x r =>
      have h0 : x ≤ d := by simpa using hle 0
      have hrest : ∀ j, r.getD j 0 ≤ dem.getD j 0 := fun j => by simpa using hle (j + 1)
      have hsumle : r.sum ≤ dem.sum := by
        clear hle ih h0
        induction dem generalizing r with
        | nil =>
          cases r with
          | nil => simp
          | cons a r => simp at hlen
        | cons e dem ih2 =>
          cases r with
          | nil => simp
          | cons y r =>
            have hy : y ≤ e := by simpa using hrest 0
            have := ih2 r (by simpa using hlen) (fun j => by simpa using hrest (j + 1))
            simp only [List.sum_cons]
            omega
      simp only [List.zipWith_cons_cons, List.sum_cons,
        ih r (by simpa using hlen) hrest]
      omega

theorem all_zero_getD (dem : List Nat) (h : dem.all (fun d => d = 0) = true) :
    ∀ j, dem.getD j 0 = 0 := by
  intro j
  induction dem generalizing j with
  | nil => simp
  | cons d dem ih =>
    simp only [List.all_cons, Bool.and_eq_true, decide_eq_true_eq] at h
    cases j with
    | zero => simpa using h.1
    | succ j => simpa using ih (by simpa using h.2) j

theorem mem_plans : ∀ (sup dem : List Nat) (T : List (List Nat)),
    T ∈ plans sup dem →
    T.length = sup.length ∧
    (∀ i, (T.getD i []).sum = sup.getD i 0) ∧
    (∀ i, (T.getD i []).length = dem.length ∨ (T.getD i []) = []) ∧
    (∀ j, (T.map (fun r => r.getD j 0)).sum = dem.getD j 0) := by
  intro sup
  induction sup with
  | nil =>
    intro dem T hT
    simp only [plans] at hT
    by_cases h0 : dem.all (fun d => d = 0) = true
    · rw [if_pos h0] at hT
      simp only [List.mem_singleton] at hT
      subst hT
      refine ⟨rfl, fun i => by simp, fun i => Or.inr (by simp), fun j => ?_⟩
      rw [show (([] : List (List Nat)).map (fun r => r.getD j 0)) = [] from rfl]
      rw [List.sum_nil, all_zero_getD dem h0 j]
    · rw [if_neg h0] at hT
      simp at hT
  | cons s ss ih =>
    intro dem T hT
    simp only [plans, List.mem_flatMap, List.mem_map] at hT
    obtain ⟨r, hr, T2, hT2, rfl⟩ := hT
    obtain ⟨hrlen, hrsum, hrcap⟩ := mem_fills dem s r hr
    obtain ⟨hlen2, hsum2, hwid2, hcol2⟩ := ih _ T2 hT2
    have hdlen : (List.zipWith (fun d x => d - x) dem r).length = dem.length :=
      length_zipWith_sub dem r hrlen
    refine ⟨by simp [hlen2], ?_, ?_, ?_⟩
    · intro i
      cases i with
      | zero => simpa using hrsum
      | succ i => simpa using hsum2 i
    · intro i
      cases i with
      | zero => exact Or.inl (by simpa using hrlen)
      | succ i =>
        rcases hwid2 i with h | h
        · left
          rw [List.getD_cons_succ, h, hdlen]
        · right
          rw [List.getD_cons_succ, h]
    · intro j
      have := hcol2 j
      rw [getD_zipWith_sub dem r hrlen j] at this
      simp only [List.map_cons, List.sum_cons, this]
      have := hrcap j
      omega

theorem plans_nonempty : ∀ (sup dem : List Nat), sup.sum = dem.sum →
    ∃ T, T ∈ plans sup dem := by
  intro sup
  induction sup with
  | nil =>
    intro dem h
    simp only [List.sum_nil] at h
    have hall : dem.all (fun d => d = 0) = true := by
      rw [List.all_eq_true]
      intro d hd
      have : dem.sum = 0 := h.symm
      have hle := List.single_le_sum (fun x _ => Nat.zero_le x) d hd
      simp only [decide_eq_true_eq]
      omega
    exact ⟨[], by simp [plans, hall]⟩
  | cons s ss ih =>
    intro dem h
    simp only [List.sum_cons] at h
    obtain ⟨r, hr⟩ := fills_nonempty dem s (by omega)
    obtain ⟨hrlen, hrsum, hrcap⟩ := mem_fills dem s r hr
    have hsub : (List.zipWith (fun d x => d - x) dem r).sum = dem.sum - r.sum :=
      sum_zipWith_sub dem r hrlen hrcap
    obtain ⟨T2, hT2⟩ := ih (List.zipWith (fun d x => d - x) dem r)
      (by rw [hsub, hrsum]; omega)
    refine ⟨r :: T2, ?_⟩
    simp only [plans, List.mem_flatMap, List.mem_map]
    exact ⟨r, hr, T2, hT2, rfl⟩

/-! ## Permutation and minimum lemmas for the sorting and reduction models -/

theorem insSorted_perm (le : α → α → Bool) (x : α) :
    ∀ (l : List α), (insSorted le x l).Perm (x :: l) := by
  intro l
  induction l with
  | nil => exact List.Perm.refl _
  | cons y ys ih =>
    rw [insSorted]
    by_cases h : le y x
    · rw [if_pos h]
      exact (ih.cons y).trans (List.Perm.swap x y ys)
    · rw [if_neg h]

theorem stableSort_perm_aux (le : α → α → Bool) :
    ∀ (l acc : List α),
      (l.foldl (fun a x => insSorted le x a) acc).Perm (acc ++ l) := by
  intro l
  induction l with
  | nil => intro acc; simp
  | cons x l ih =>
    intro acc
    refine (ih (insSorted le x acc)).trans ?_
    refine (List.Perm.append_right l (insSorted_perm le x acc)).trans ?_
    rw [show (x :: acc) ++ l = x :: (acc ++ l) from rfl]
    exact List.perm_middle.symm.trans (List.Perm.refl _) |>.symm.symm

theorem stableSort_perm (le : α → α → Bool) (l : List α) :
    (stableSort le l).Perm l := by
  have := stableSort_perm_aux le l []
  simpa [stableSort] using this

theorem mem_stableSort (le : α → α → Bool) (l : List α) (x : α) :
    x ∈ stableSort le l ↔ x ∈ l :=
  (stableSort_perm le l).mem_iff

theorem foldl_min_le_all (xs : List ℚ) :
    ∀ (x : ℚ), xs.foldl min x ≤ x ∧ ∀ y ∈ xs, xs.foldl min x ≤ y := by
  induction xs with
  | nil => intro x; exact ⟨le_refl x, by simp⟩
  | cons z xs ih =>
    intro x
    obtain ⟨h1, h2⟩ := ih (min x z)
    refine ⟨le_trans h1 (min_le_left x z), ?_⟩
    intro y hy
    rcases List.mem_cons.mp hy with rfl | hy
    · exact le_trans h1 (min_le_right x y)
    · exact h2 y hy

theorem minList_le (l : List ℚ) (v : ℚ) (h : minList l = some v) :
    ∀ x ∈ l, v ≤ x := by
  cases l with
  | nil => simp [minList] at h
  | cons x xs =>
    simp only [minList, Option.some_inj] at h
    subst h
    intro y hy
    rcases List.mem_cons.mp hy with rfl | hy
    · exact (foldl_min_le_all xs y).1
    · exact (foldl_min_le_all xs x).2 y hy

theorem minList_isSome (l : List ℚ) (hne : l ≠ []) : minList l ≠ none := by
  cases l with
  | nil => exact absurd rfl hne
  | cons x xs => simp [minList]

theorem optSum_getD (l : List (Option ℚ)) (s : ℚ) (h : optSum l = some s) :
    (∀ o ∈ l, o ≠ none) ∧ s = (l.map (fun o => o.getD 0)).sum := by
  induction l generalizing s with
  | nil =>
    simp only [optSum, Option.some_inj] at h
    exact ⟨by simp, by simp [h.symm]⟩
  | cons o os ih =>
    cases o with
    | none => simp [optSum] at h
    | some a =>
      cases hos : optSum os with
      | none => rw [optSum, hos] at h; simp at h
      | some b =>
        rw [optSum, hos] at h
        simp only [Option.some_bind, Option.map_some] at h
        have hs : s = a + b := by simpa using h.symm
        obtain ⟨h1, h2⟩ := ih b hos
        refine ⟨?_, ?_⟩
        · intro x hx
          rcases List.mem_cons.mp hx with rfl | hx
          · simp
          · exact h1 x hx
        · simp only [List.map_cons, List.sum_cons, Option.getD_some, hs, ← h2]

theorem optSum_none (l : List (Option ℚ)) (o : Option ℚ) (ho : o ∈ l)
    (hn : o = none) : optSum l = none := by
  induction l with
  | nil => simp at ho
  | cons x xs ih =>
    rcases List.mem_cons.mp ho with rfl | hx
    · subst hn; rfl
    · rw [optSum, ih hx]
      cases x <;> rfl

/-! ## Cost lower bounds over transport plans -/

theorem rowDot_lower (μ : ℚ) : ∀ (r : List Nat) (c : List ℚ),
    r.length ≤ c.length →
    (∀ j, j < r.length → 0 < r.getD j 0 → μ ≤ c.getD j 0) →
    μ * (r.sum : ℚ) ≤ rowDot c r := by
  intro r
  induction r with
  | nil => intro c _ _; simp [rowDot]
  | cons x r2 ih =>
    intro c hlen hc
    cases c with
    | nil => simp at hlen
    | cons c0 c2 =>
      rw [rowDot, List.zipWith_cons_cons, List.sum_cons]
      have hhead : μ * (x : ℚ) ≤ c0 * (x : ℚ) := by
        rcases Nat.eq_zero_or_pos x with rfl | hx
        · simp
        · have hμ : μ ≤ c0 := by simpa using hc 0 (by simp) (by simpa using hx)
          exact mul_le_mul_of_nonneg_right hμ (by positivity)
      have htail := ih c2 (by simpa using hlen)
        (fun j hj hpos => by simpa using hc (j + 1) (by simpa using hj) (by simpa using hpos))
      calc μ * ((x :: r2).sum : ℚ) = μ * (x : ℚ) + μ * (r2.sum : ℚ) := by
            push_cast
            rw [List.map_cons, List.sum_cons]
            ring
        _ ≤ c0 * (x : ℚ) + rowDot c2 r2 := add_le_add hhead htail

def sumProd (νs : List ℚ) (d : List Nat) : ℚ :=
  (List.zipWith (fun (ν : ℚ) (n : Nat) => ν * (n : ℚ)) νs d).sum

theorem sumProd_le_rowDot (νs : List ℚ) : ∀ (r : List Nat) (c : List ℚ),
    r.length ≤ c.length → r.length ≤ νs.length →
    (∀ j, j < r.length → 0 < r.getD j 0 → νs.getD j 0 ≤ c.getD j 0) →
    sumProd νs r ≤ rowDot c r := by
  intro r
  induction r generalizing νs with
  | nil => intro c _ _ _; simp [sumProd, rowDot]
  | cons x r2 ih =>
    intro c hlen hlen2 hc
    cases c with
    | nil => simp at hlen
    | cons c0 c2 =>
      cases νs with
      | nil => simp at hlen2
      | cons ν0 ν2 =>
        rw [sumProd, List.zipWith_cons_cons, List.sum_cons, rowDot,
          List.zipWith_cons_cons, List.sum_cons]
        have hhead : ν0 * (x : ℚ) ≤ c0 * (x : ℚ) := by
          rcases Nat.eq_zero_or_pos x with rfl | hx
          · simp
          · have hν : ν0 ≤ c0 := by simpa using hc 0 (by simp) (by simpa using hx)
            exact mul_le_mul_of_nonneg_right hν (by positivity)
        have htail := ih ν2 c2 (by simpa using hlen) (by simpa using hlen2)
          (fun j hj hpos => by simpa using hc (j + 1) (by simpa using hj) (by simpa using hpos))
        exact add_le_add hhead (by simpa [sumProd] using htail)

theorem sumProd_split (νs : List ℚ) : ∀ (dem r : List Nat),
    r.length = dem.length → (∀ j, r.getD j 0 ≤ dem.getD j 0) →
    sumProd νs dem =
      sumProd νs r + sumProd νs (List.zipWith (fun d x => d - x) dem r) := by
  induction νs with
  | nil => intro dem r _ _; simp [sumProd]
  | cons ν νs ih =>
    intro dem r hlen hle
    cases dem with
    | nil =>
      cases r with
      | nil => simp [sumProd]
      | cons a r => simp at hlen
    | cons d dem =>
      cases r with
      | nil => simp at hlen
      | cons x r =>
        have h0 : x ≤ d := by simpa using hle 0
        have hcast : (d : ℚ) = (x : ℚ) + ((d - x : Nat) : ℚ) := by
          rw [← Nat.cast_add]
          norm_cast
          omega
        have htail := ih dem r (by simpa using hlen)
          (fun j => by simpa using hle (j + 1))
        simp only [sumProd, List.zipWith_cons_cons, List.sum_cons] at htail ⊢
        rw [hcast]
        have : ν * ((x : ℚ) + ((d - x : Nat) : ℚ)) =
            ν * (x : ℚ) + ν * ((d - x : Nat) : ℚ) := by ring
        rw [this, htail]
        ring

theorem sumProd_all_zero (νs : List ℚ) : ∀ (dem : List Nat),
    dem.all (fun d => d = 0) = true → sumProd νs dem = 0 := by
  induction νs with
  | nil => intro dem _; simp [sumProd]
  | cons ν νs ih =>
    intro dem h
    cases dem with
    | nil => simp [sumProd]
    | cons d dem2 =>
      simp only [List.all_cons, Bool.and_eq_true, decide_eq_true_eq] at h
      simp only [sumProd, List.zipWith_cons_cons, List.sum_cons, h.1]
      have := ih dem2 (by simpa using h.2)
      simp only [sumProd] at this
      simp [this]

theorem getD_le_sum (r : List Nat) (j : Nat) : r.getD j 0 ≤ r.sum := by
  induction r generalizing j with
  | nil => simp
  | cons x r ih =>
    cases j with
    | zero => simp
    | succ j =>
      simp only [List.getD_cons_succ, List.sum_cons]
      exact le_trans (ih j) (Nat.le_add_left _ _)

theorem plan_cost_row_bound (dem0 : List Nat) :
    ∀ (sup dem : List Nat) (μs : List ℚ) (C : List (List ℚ))
      (T : List (List Nat)),
    T ∈ plans sup dem →
    μs.length = sup.length → C.length = sup.length →
    dem.length = dem0.length →
    (∀ j, dem.getD j 0 ≤ dem0.getD j 0) →
    (∀ c0 ∈ C, dem.length ≤ c0.length) →
    (∀ i j, i < sup.length → j < dem0.length → 0 < dem0.getD j 0 →
      μs.getD i 0 ≤ (C.getD i []).getD j 0) →
    (List.zipWith (fun (μ : ℚ) (s : Nat) => μ * (s : ℚ)) μs sup).sum ≤
      planCost C T := by
  intro sup
  induction sup with
  | nil =>
    intro dem μs C T hT hμlen hClen _ _ _ _
    have hμ : μs = [] := List.length_eq_zero.mp hμlen
    subst hμ
    simp only [plans] at hT
    by_cases h0 : dem.all (fun d => d = 0) = true
    · rw [if_pos h0] at hT
      simp only [List.mem_singleton] at hT
      subst hT
      simp [planCost]
    · rw [if_neg h0] at hT
      simp at hT
  | cons s ss ih =>
    intro dem μs C T hT hμlen hClen hdlen hdle hCw hμ
    cases μs with
    | nil => simp at hμlen
    | cons μ0 μrest =>
      cases C with
      | nil => simp at hClen
      | cons c0 Crest =>
        simp only [plans, List.mem_flatMap, List.mem_map] at hT
        obtain ⟨r, hr, T2, hT2, rfl⟩ := hT
        obtain ⟨hrlen, hrsum, hrcap⟩ := mem_fills dem s r hr
        have hhead : μ0 * (s : ℚ) ≤ rowDot c0 r := by
          rw [← hrsum]
          refine rowDot_lower μ0 r c0 ?_ ?_
          · rw [hrlen]
            exact hCw c0 (List.mem_cons_self c0 Crest)
          · intro j hj hpos
            have hj2 : j < dem0.length := by
              rw [← hdlen, ← hrlen]
              exact hj
            have hd0 : 0 < dem0.getD j 0 :=
              lt_of_lt_of_le (lt_of_lt_of_le hpos (hrcap j)) (hdle j)
            simpa using hμ 0 j (by simp) hj2 hd0
        have htail :
            (List.zipWith (fun (μ : ℚ) (s : Nat) => μ * (s : ℚ)) μrest ss).sum ≤
              planCost Crest T2 := by
          refine ih (List.zipWith (fun d x => d - x) dem r) μrest Crest T2 hT2
            (by simpa using hμlen) (by simpa using hClen)
            (by rw [length_zipWith_sub dem r hrlen]; exact hdlen) ?_ ?_ ?_
          · intro j
            rw [getD_zipWith_sub dem r hrlen j]
            exact le_trans (Nat.sub_le _ _) (hdle j)
          · intro cc hcc
            rw [length_zipWith_sub dem r hrlen]
            exact hCw cc (List.mem_cons_of_mem c0 hcc)
          · intro i j hi hj hd0
            simpa using hμ (i + 1) j (by simpa using hi) hj hd0
        simp only [List.zipWith_cons_cons, List.sum_cons, planCost, List.map_cons]
        calc μ0 * (s : ℚ) +
              (List.zipWith (fun (μ : ℚ) (s : Nat) => μ * (s : ℚ)) μrest ss).sum
            ≤ rowDot c0 r + planCost Crest T2 := add_le_add hhead htail
          _ = planCost (c0 :: Crest) (r :: T2) := by
              simp [planCost, List.zipWith_cons_cons]

theorem plan_cost_col_bound (νs : List ℚ) :
    ∀ (sup dem : List Nat) (C : List (List ℚ)) (T : List (List Nat)),
    T ∈ plans sup dem →
    C.length = sup.length →
    νs.length = dem.length →
    (∀ c0 ∈ C, dem.length ≤ c0.length) →
    (∀ i j, i < sup.length → 0 < sup.getD i 0 → j < dem.length →
      νs.getD j 0 ≤ (C.getD i []).getD j 0) →
    sumProd νs dem ≤ planCost C T := by
  intro sup
  induction sup with
  | nil =>
    intro dem C T hT _ _ _ _
    simp only [plans] at hT
    by_cases h0 : dem.all (fun d => d = 0) = true
    · rw [if_pos h0] at hT
      simp only [List.mem_singleton] at hT
      subst hT
      rw [sumProd_all_zero νs dem h0]
      simp [planCost]
    · rw [if_neg h0] at hT
      simp at hT
  | cons s ss ih =>
    intro dem C T hT hClen hνlen hCw hν
    cases C with
    | nil => simp at hClen
    | cons c0 Crest =>
      simp only [plans, List.mem_flatMap, List.mem_map] at hT
      obtain ⟨r, hr, T2, hT2, rfl⟩ := hT
      obtain ⟨hrlen, hrsum, hrcap⟩ := mem_fills dem s r hr
      have hsplit := sumProd_split νs dem r hrlen hrcap
      have hhead : sumProd νs r ≤ rowDot c0 r := by
        refine sumProd_le_rowDot νs r c0 ?_ ?_ ?_
        · rw [hrlen]
          exact hCw c0 (List.mem_cons_self c0 Crest)
        · rw [hrlen, ← hνlen]
        · intro j hj hpos
          have hs : 0 < s := by
            rw [← hrsum]
            exact lt_of_lt_of_le hpos (getD_le_sum r j)
          have := hν 0 j (by simp) (by simpa using hs) (by rw [← hrlen]; exact hj)
          simpa using this
      have htail : sumProd νs (List.zipWith (fun d x => d - x) dem r) ≤
          planCost Crest T2 := by
        refine ih (List.zipWith (fun d x => d - x) dem r) Crest T2 hT2
          (by simpa using hClen)
          (by rw [length_zipWith_sub dem r hrlen]; exact hνlen) ?_ ?_
        · intro cc hcc
          rw [length_zipWith_sub dem r hrlen]
          exact hCw cc (List.mem_cons_of_mem c0 hcc)
        · intro i j hi hpos hj
          rw [length_zipWith_sub dem r hrlen] at hj
          have := hν (i + 1) j (by simpa using hi) (by simpa using hpos) hj
          simpa using this
      rw [hsplit]
      calc sumProd νs r + sumProd νs (List.zipWith (fun d x => d - x) dem r)
          ≤ rowDot c0 r + planCost Crest T2 := add_le_add hhead htail
        _ = planCost (c0 :: Crest) (r :: T2) := by
            simp [planCost, List.zipWith_cons_cons]

theorem foldl_min_le_of_all (B : ℚ) :
    ∀ (cs : List ℚ) (c : ℚ), B ≤ c → (∀ x ∈ cs, B ≤ x) → B ≤ cs.foldl min c := by
  intro cs
  induction cs with
  | nil => intro c hc _; exact hc
  | cons x cs ih =>
    intro c hc hall
    exact ih (min c x) (le_min hc (hall x (List.mem_cons_self x cs)))
      (fun y hy => hall y (List.mem_cons_of_mem x hy))

theorem emdScaled_lower (sup dem : List Nat) (C : List (List ℚ)) (B : ℚ)
    (hfeas : sup.sum = dem.sum)
    (hall : ∀ T ∈ plans sup dem, B ≤ planCost C T) :
    B ≤ emdScaled sup dem C := by
  obtain ⟨T, hT⟩ := plans_nonempty sup dem hfeas
  rw [emdScaled]
  cases hmap : (plans sup dem).map (planCost C) with
  | nil =>
    exfalso
    have hmem : planCost C T ∈ (plans sup dem).map (planCost C) :=
      List.mem_map_of_mem _ hT
    rw [hmap] at hmem
    simp at hmem
  | cons c cs =>
    have hmem : ∀ x ∈ c :: cs, B ≤ x := by
      intro x hx
      rw [← hmap] at hx
      obtain ⟨T2, hT2, rfl⟩ := List.mem_map.mp hx
      exact hall T2 hT2
    exact foldl_min_le_of_all B cs c (hmem c (List.mem_cons_self c cs))
      (fun x hx => hmem x (List.mem_cons_of_mem c hx))

/-! ## Rational scaling lemmas for the modelled emd -/

theorem dvd_foldl_lcm (l : List ℚ) : ∀ (a b : Nat), b ∣ a →
    b ∣ l.foldl (fun acc x => Nat.lcm acc x.den) a := by
  induction l with
  | nil => intro a b h; exact h
  | cons x l ih =>
    intro a b h
    exact ih (Nat.lcm a x.den) b (dvd_trans h (Nat.dvd_lcm_left a x.den))

theorem den_dvd_foldl (l : List ℚ) : ∀ (a : Nat) (q : ℚ), q ∈ l →
    q.den ∣ l.foldl (fun acc x => Nat.lcm acc x.den) a := by
  induction l with
  | nil => intro a q h; simp at h
  | cons x l ih =>
    intro a q h
    rcases List.mem_cons.mp h with rfl | h
    · exact dvd_foldl_lcm l (Nat.lcm a q.den) q.den (Nat.dvd_lcm_right a q.den)
    · exact ih (Nat.lcm a x.den) q h

theorem den_dvd_commonDen (l : List ℚ) (q : ℚ) (h : q ∈ l) :
    q.den ∣ commonDen l :=
  den_dvd_foldl l 1 q h

theorem foldl_lcm_ne_zero (l : List ℚ) : ∀ (a : Nat), a ≠ 0 →
    l.foldl (fun acc x => Nat.lcm acc x.den) a ≠ 0 := by
  induction l with
  | nil => intro a h; exact h
  | cons x l ih =>
    intro a h
    exact ih (Nat.lcm a x.den) (Nat.lcm_ne_zero h x.den_nz)

theorem commonDen_ne_zero (l : List ℚ) : commonDen l ≠ 0 :=
  foldl_lcm_ne_zero l 1 one_ne_zero

theorem scaleNat_cast (M : Nat) (q : ℚ) (hq : 0 ≤ q) (hdvd : q.den ∣ M) :
    ((scaleNat M q : Nat) : ℚ) = q * (M : ℚ) := by
  obtain ⟨k, hk⟩ := hdvd
  have hden : ((q.den : Nat) : ℚ) ≠ 0 := Nat.cast_ne_zero.mpr q.den_nz
  have hqden : q * ((q.den : Nat) : ℚ) = ((q.num : ℤ) : ℚ) := by
    have h := Rat.num_div_den q
    calc q * ((q.den : Nat) : ℚ)
        = (((q.num : ℤ) : ℚ) / ((q.den : Nat) : ℚ)) * ((q.den : Nat) : ℚ) := by rw [h]
      _ = ((q.num : ℤ) : ℚ) := div_mul_cancel₀ _ hden
  have hqM : q * (M : ℚ) = (((q.num * k : ℤ)) : ℚ) := by
    rw [hk]
    push_cast
    rw [← mul_assoc, hqden]
  have hnum : (q * (M : ℚ)).num = q.num * (k : ℤ) := by
    rw [hqM]
    exact Rat.intCast_num _
  have hpos : 0 ≤ q.num * (k : ℤ) := by
    have h1 : 0 ≤ q.num := Rat.num_nonneg.mpr hq
    positivity
  rw [scaleNat, hnum, hqM]
  rw [show ((q.num * (k : ℤ)).toNat : ℚ) = (((q.num * (k : ℤ)).toNat : ℤ) : ℚ) from by
    push_cast
    ring]
  rw [Int.toNat_of_nonneg hpos]

theorem scaleNat_zero (M : Nat) : scaleNat M 0 = 0 := by
  simp [scaleNat]

/-! ## Sum helper lemmas -/

theorem natCast_list_sum (l : List Nat) :
    ((l.sum : Nat) : ℚ) = (l.map (fun (n : Nat) => (n : ℚ))).sum := by
  induction l with
  | nil => simp
  | cons x l ih =>
    rw [List.map_cons, List.sum_cons, List.sum_cons, ← ih]
    push_cast
    ring

theorem sum_map_congr (l : List α) (f g : α → ℚ) (h : ∀ x ∈ l, f x = g x) :
    (l.map f).sum = (l.map g).sum := by
  rw [List.map_congr_left h]

theorem sum_map_addN (l : List α) (f g : α → Nat) :
    (l.map (fun t => f t + g t)).sum = (l.map f).sum + (l.map g).sum := by
  induction l with
  | nil => simp
  | cons x l ih => simp only [List.map_cons, List.sum_cons, ih]; omega

theorem sum_map_addQ (l : List α) (f g : α → ℚ) :
    (l.map (fun t => f t + g t)).sum = (l.map f).sum + (l.map g).sum := by
  induction l with
  | nil => simp
  | cons x l ih => simp only [List.map_cons, List.sum_cons, ih]; ring

theorem sum_map_mulQ (l : List α) (f : α → ℚ) (r : ℚ) :
    (l.map (fun t => f t * r)).sum = (l.map f).sum * r := by
  induction l with
  | nil => simp
  | cons x l ih => simp only [List.map_cons, List.sum_cons, ih]; ring

theorem count_cons_if (w t : Str) (ws : List Str) :
    (w :: ws).count t = ws.count t + (if t = w then 1 else 0) := by
  by_cases htw : t = w
  · subst htw
    simp [List.count_cons]
  · have h1 : ¬ w = t := fun h => htw h.symm
    simp [List.count_cons, htw, h1]

theorem sum_indicator_zero (w : Str) : ∀ (toks : List Str), w ∉ toks →
    (toks.map (fun t => if t = w then 1 else 0)).sum = 0 := by
  intro toks
  induction toks with
  | nil => intro _; simp
  | cons t toks ih =>
    intro h
    have ht : ¬ t = w := fun he => h (he ▸ List.mem_cons_self t toks)
    simp only [List.map_cons, List.sum_cons, if_neg ht,
      ih (fun hw => h (List.mem_cons_of_mem t hw))]

theorem sum_indicator_one (w : Str) : ∀ (toks : List Str), toks.Nodup →
    w ∈ toks → (toks.map (fun t => if t = w then 1 else 0)).sum = 1 := by
  intro toks
  induction toks with
  | nil => intro _ h; simp at h
  | cons t toks ih =>
    intro hnd hw
    rcases List.mem_cons.mp hw with rfl | hw2
    · have hnot : w ∉ toks := (List.nodup_cons.mp hnd).1
      simp only [List.map_cons, List.sum_cons, sum_indicator_zero w toks hnot]
      simp
    · have ht : ¬ t = w := by
        intro he
        exact (List.nodup_cons.mp hnd).1 (he ▸ hw2)
      simp only [List.map_cons, List.sum_cons, if_neg ht,
        ih (List.nodup_cons.mp hnd).2 hw2]

theorem sum_count_eq : ∀ (doc toks : List Str), toks.Nodup →
    (∀ t ∈ doc, t ∈ toks) →
    (toks.map (fun t => doc.count t)).sum = doc.length := by
  intro doc
  induction doc with
  | nil => intro toks _ _; simp
  | cons w ws ih =>
    intro toks hnd hsub
    rw [List.map_congr_left (fun t _ => count_cons_if w t ws), sum_map_addN]
    rw [ih toks hnd (fun t ht => hsub t (List.mem_cons_of_mem w ht))]
    rw [sum_indicator_one w toks hnd (hsub w (List.mem_cons_self w ws))]
    simp

theorem sum_f_indicator_zero (f : Str → ℚ) (w : Str) : ∀ (toks : List Str),
    w ∉ toks →
    (toks.map (fun t => f t * (if t = w then 1 else 0))).sum = 0 := by
  intro toks
  induction toks with
  | nil => intro _; simp
  | cons t toks ih =>
    intro h
    have ht : ¬ t = w := fun he => h (he ▸ List.mem_cons_self t toks)
    simp only [List.map_cons, List.sum_cons, if_neg ht,
      ih (fun hw => h (List.mem_cons_of_mem t hw))]
    ring

theorem sum_f_indicator_one (f : Str → ℚ) (w : Str) : ∀ (toks : List Str),
    toks.Nodup → w ∈ toks →
    (toks.map (fun t => f t * (if t = w then 1 else 0))).sum = f w := by
  intro toks
  induction toks with
  | nil => intro _ h; simp at h
  | cons t toks ih =>
    intro hnd hw
    rcases List.mem_cons.mp hw with rfl | hw2
    · have hnot : w ∉ toks := (List.nodup_cons.mp hnd).1
      simp only [List.map_cons, List.sum_cons, sum_f_indicator_zero f w toks hnot]
      simp
    · have ht : ¬ t = w := by
        intro he
        exact (List.nodup_cons.mp hnd).1 (he ▸ hw2)
      simp only [List.map_cons, List.sum_cons, if_neg ht,
        ih (List.nodup_cons.mp hnd).2 hw2]
      ring

theorem sum_count_mul (f : Str → ℚ) : ∀ (doc toks : List Str), toks.Nodup →
    (∀ t ∈ doc, t ∈ toks) →
    (toks.map (fun t => f t * (doc.count t : ℚ))).sum = (doc.map f).sum := by
  intro doc
  induction doc with
  | nil =>
    intro toks _ _
    simp
  | cons w ws ih =>
    intro toks hnd hsub
    have hcast : ∀ t : Str, f t * ((w :: ws).count t : ℚ) =
        f t * (ws.count t : ℚ) + f t * (if t = w then 1 else 0) := by
      intro t
      rw [count_cons_if w t ws]
      by_cases htw : t = w
      · rw [if_pos htw, if_pos htw]
        push_cast
        ring
      · rw [if_neg htw, if_neg htw]
        push_cast
        ring
    rw [List.map_congr_left (fun t _ => hcast t), sum_map_addQ]
    rw [ih toks hnd (fun t ht => hsub t (List.mem_cons_of_mem w ht))]
    rw [sum_f_indicator_one f w toks hnd (hsub w (List.mem_cons_self w ws))]
    simp [add_comm]

theorem range_map_getD (g : α → ℚ) (d : α) : ∀ (l : List α),
    (List.range l.length).map (fun i => g (l.getD i d)) = l.map g := by
  intro l
  induction l with
  | nil => simp
  | cons x xs ih =>
    rw [List.length_cons, List.range_succ_eq_map]
    simp only [List.map_cons, List.getD_cons_zero, List.map_map]
    congr 1

theorem sum_zipWith_range_mul (L : Nat) (f : Nat → ℚ) (l : List Nat)
    (hn : l.length = L) :
    (List.zipWith (fun (μ : ℚ) (s : Nat) => μ * (s : ℚ))
        ((List.range L).map f) l).sum =
      ((List.range L).map (fun i => f i * (l.getD i 0 : ℚ))).sum := by
  induction l generalizing L f with
  | nil =>
    subst hn
    simp
  | cons x xs ih =>
    subst hn
    rw [List.length_cons, List.range_succ_eq_map]
    simp only [List.map_cons, List.map_map, List.zipWith_cons_cons, List.sum_cons,
      List.getD_cons_zero]
    congr 1
    rw [show (f ∘ Nat.succ) = (fun i => f (i + 1)) from rfl]
    rw [ih xs.length (fun i => f (i + 1)) rfl]
    apply sum_map_congr
    intro i _
    simp [List.getD_cons_succ]

theorem range_sum_zero_tail (L n : Nat) (h : n ≤ L) (f : Nat → ℚ)
    (hf : ∀ i, n ≤ i → f i = 0) :
    ((List.range L).map f).sum = ((List.range n).map f).sum := by
  obtain ⟨k, rfl⟩ : ∃ k, L = n + k := ⟨L - n, by omega⟩
  rw [List.range_add, List.map_append, List.sum_append, List.map_map]
  have hz : ((List.range k).map (f ∘ (fun i => n + i))).sum = 0 := by
    apply List.sum_eq_zero
    intro x hx
    obtain ⟨i, -, rfl⟩ := List.mem_map.mp hx
    exact hf (n + i) (Nat.le_add_right n i)
  rw [hz]
  ring

theorem getD_mem (l : List α) (i : Nat) (d : α) (h : i < l.length) :
    l.getD i d ∈ l := by
  rw [List.getD_eq_getElem l d h]
  exact List.getElem_mem h

theorem map_getD_lt (l : List α) (f : α → β) (d : α) (db : β) (i : Nat)
    (hi : i < l.length) : (l.map f).getD i db = f (l.getD i d) := by
  rw [List.getD_eq_getElem _ db (by simpa using hi), List.getD_eq_getElem l d hi]
  simp

theorem getD_range (L i : Nat) (hi : i < L) : (List.range L).getD i 0 = i := by
  rw [List.getD_eq_getElem _ 0 (by simpa using hi)]
  simp

theorem wmdistance_if (m : W2VModel) (words doc : List Str)
    (ad : List (List ℚ)) (hw : words ≠ []) (hd : doc ≠ []) :
    wmdistance m words doc ad =
      (if ((distanceMatrix m words doc ad).map List.sum).sum = 0
        then (⊤ : WithTop ℚ)
        else (((emd (nbowOf (dictTokens words doc) words)
          (nbowOf (dictTokens words doc) doc)
          (distanceMatrix m words doc ad)) : ℚ) : WithTop ℚ)) := by
  rw [wmdistance, if_neg (by simp [hw, hd])]


theorem count_eq_zero_not_mem (x : Str) : ∀ (l : List Str), x ∉ l → l.count x = 0 := by
  intro l
  induction l with
  | nil => intro h2; simp
  | cons w ws ih =>
    intro hm
    rw [count_cons_if w x ws, ih (fun h => hm (List.mem_cons_of_mem w h)),
      if_neg (fun h => hm (by rw [h]; exact List.mem_cons_self w ws))]

theorem count_eq_one_nodup (x : Str) : ∀ (l : List Str), l.Nodup → x ∈ l → l.count x = 1 := by
  intro l
  induction l with
  | nil => intro h2 hm; cases hm
  | cons w ws ih =>
    intro hnd hm
    rw [count_cons_if w x ws]
    by_cases hxw : x = w
    · rw [if_pos hxw,
        count_eq_zero_not_mem x ws (by rw [hxw]; exact (List.nodup_cons.mp hnd).1)]
    · rw [if_neg hxw]
      have hxm : x ∈ ws := by
        cases List.mem_cons.mp hm with
        | inl h => exact absurd h hxw
        | inr h => exact h
      rw [ih (List.nodup_cons.mp hnd).2 hxm]

theorem dictAdd_nil_sorted (words : List Str) (hdict : dictAdd [] words = words) :
    stableSort strLe words.dedup = words := by
  have h := hdict
  rw [dictAdd, List.filter_eq_self.mpr (fun a _ => by simp), List.nil_append] at h
  exact h

theorem dictAdd_nil_nodup (words : List Str) (hdict : dictAdd [] words = words) :
    words.Nodup := by
  have hperm : (stableSort strLe words.dedup).Perm words.dedup :=
    stableSort_perm strLe words.dedup
  rw [dictAdd_nil_sorted words hdict] at hperm
  exact hperm.nodup_iff.mpr (List.nodup_dedup words)

/-- Claim C3 amended: the Stage-1 relaxed value is the maximum of the two
*unnormalised* one-sided nearest-word cost sums; each one-sided sum divided
by its own side's token count is a lower bound on the Stage-2 exact
transport distance, for a query whose in-vocabulary token list is its own
gensim dictionary (duplicate-free and sorted, so the code's cost-matrix
column indexing lines up with the query tokens).  The unnormalised maximum
itself can exceed the exact distance, as the counterexample shows. -/
theorem C3_amended (m : W2VModel) (words doc : List Str) (ad : List (List ℚ))
    (hdict : dictAdd [] words = words)
    (hw : words ≠ []) (hd : doc ≠ [])
    (hrowlen : ∀ t ∈ doc, (ad.getD (idxOf m.vocab t) []).length = words.length)
    (s0 s1 : ℚ)
    (h0 : sumMinAxis0 (doc.map (fun t => ad.getD (idxOf m.vocab t) []))
      words.length = some s0)
    (h1 : sumMinAxis1 (doc.map (fun t => ad.getD (idxOf m.vocab t) [])) = some s1) :
    rwmdOf (doc.map (fun t => ad.getD (idxOf m.vocab t) [])) words.length =
      some (max s0 s1) ∧
    ((s0 / (words.length : ℚ) : ℚ) : WithTop ℚ) ≤ wmdistance m words doc ad ∧
    ((s1 / (doc.length : ℚ) : ℚ) : WithTop ℚ) ≤ wmdistance m words doc ad := by
  refine ⟨by rw [rwmdOf, h0, h1]; rfl, ?_⟩
  by_cases hz : ((distanceMatrix m words doc ad).map List.sum).sum = 0
  · rw [wmdistance_if m words doc ad hw hd, if_pos hz]
    exact ⟨le_top, le_top⟩
  rw [wmdistance_if m words doc ad hw hd, if_neg hz]
  rw [WithTop.coe_le_coe, WithTop.coe_le_coe]
  have hwnd : words.Nodup := dictAdd_nil_nodup words hdict
  have htoks : dictTokens words doc =
      words ++ stableSort strLe ((doc.filter (fun t => decide (t ∉ words))).dedup) := by
    rw [dictTokens, hdict, dictAdd]
  set extra := stableSort strLe ((doc.filter (fun t => decide (t ∉ words))).dedup)
    with hextra
  set toks := dictTokens words doc with htoksdef
  have hextmem : ∀ t ∈ extra, t ∉ words ∧ t ∈ doc := by
    intro t ht
    rw [hextra, mem_stableSort, List.mem_dedup, List.mem_filter] at ht
    exact ⟨by simpa using ht.2, ht.1⟩
  have hextnd : extra.Nodup := by
    have hperm := stableSort_perm strLe ((doc.filter (fun t => decide (t ∉ words))).dedup)
    exact hperm.nodup_iff.mpr (List.nodup_dedup _)
  have htoksnd : toks.Nodup := by
    rw [htoks]
    exact List.Nodup.append hwnd hextnd (fun t h1' h2' => (hextmem t h2').1 h1')
  have hlenQ : words.length ≤ toks.length := by
    rw [htoks]
    simp
  have hdocsub : ∀ t ∈ doc, t ∈ toks := by
    intro t ht
    rw [htoks, List.mem_append]
    by_cases hw2 : t ∈ words
    · exact Or.inl hw2
    · right
      rw [hextra, mem_stableSort, List.mem_dedup, List.mem_filter]
      exact ⟨ht, by simpa using hw2⟩
  have hwordsub : ∀ t ∈ words, t ∈ toks := by
    intro t ht
    rw [htoks, List.mem_append]
    exact Or.inl ht
  have htoksget : ∀ i, i < words.length → toks.getD i [] = words.getD i [] := by
    intro i hi
    rw [htoks]
    exact List.getD_append words extra [] i hi
  have htoksgetmem : ∀ i, i < words.length → toks.getD i [] ∈ words := by
    intro i hi
    rw [htoksget i hi]
    exact getD_mem words i [] hi
  have htoksnotin : ∀ i, words.length ≤ i → i < toks.length →
      toks.getD i [] ∉ words := by
    intro i hle hlt
    have hi2 : i - words.length < extra.length := by
      rw [htoks, List.length_append] at hlt
      omega
    rw [htoks, List.getD_append_right words extra [] i hle]
    exact (hextmem _ (getD_mem extra _ [] hi2)).1
  have hLQ0 : (0 : ℚ) < (words.length : ℚ) := by
    have h2 : 0 < words.length := List.length_pos.mpr hw
    exact_mod_cast h2
  have hLD0 : (0 : ℚ) < (doc.length : ℚ) := by
    have h2 : 0 < doc.length := List.length_pos.mpr hd
    exact_mod_cast h2
  set d1 := nbowOf toks words with hd1
  set d2 := nbowOf toks doc with hd2
  have hd1len : d1.length = toks.length := by rw [hd1, nbowOf, List.length_map]
  have hd2len : d2.length = toks.length := by rw [hd2, nbowOf, List.length_map]
  have hd1val : ∀ i, i < toks.length →
      d1.getD i 0 = ((words.count (toks.getD i []) : Nat) : ℚ) / (words.length : ℚ) := by
    intro i hi
    rw [hd1, nbowOf]
    exact map_getD_lt toks _ [] 0 i hi
  have hd2val : ∀ j, j < toks.length →
      d2.getD j 0 = ((doc.count (toks.getD j []) : Nat) : ℚ) / (doc.length : ℚ) := by
    intro j hj
    rw [hd2, nbowOf]
    exact map_getD_lt toks _ [] 0 j hj
  have hd1val_lt : ∀ i, i < words.length → d1.getD i 0 = 1 / (words.length : ℚ) := by
    intro i hi
    rw [hd1val i (lt_of_lt_of_le hi hlenQ),
      count_eq_one_nodup _ words hwnd (htoksgetmem i hi)]
    norm_num
  have hd1val_ge : ∀ i, words.length ≤ i → i < toks.length → d1.getD i 0 = 0 := by
    intro i hle hlt
    rw [hd1val i hlt, count_eq_zero_not_mem _ words (htoksnotin i hle hlt)]
    norm_num
  have hd1nonneg : ∀ q ∈ d1, 0 ≤ q := by
    intro q hq
    rw [hd1, nbowOf] at hq
    obtain ⟨t, -, rfl⟩ := List.mem_map.mp hq
    positivity
  have hd2nonneg : ∀ q ∈ d2, 0 ≤ q := by
    intro q hq
    rw [hd2, nbowOf] at hq
    obtain ⟨t, -, rfl⟩ := List.mem_map.mp hq
    positivity
  have hd1sum : d1.sum = 1 := by
    rw [hd1, nbowOf]
    rw [sum_map_congr toks _
      (fun t => ((words.count t : Nat) : ℚ) * (1 / (words.length : ℚ)))
      (fun t _ => by ring)]
    rw [sum_map_mulQ toks (fun t => ((words.count t : Nat) : ℚ)) (1 / (words.length : ℚ))]
    rw [show toks.map (fun t => ((words.count t : Nat) : ℚ)) =
        (toks.map (fun t => words.count t)).map (fun (n : Nat) => (n : ℚ)) from by
      rw [List.map_map]
      rfl]
    rw [← natCast_list_sum, sum_count_eq words toks htoksnd hwordsub]
    rw [mul_one_div, div_self (ne_of_gt hLQ0)]
  have hd2sum : d2.sum = 1 := by
    rw [hd2, nbowOf]
    rw [sum_map_congr toks _
      (fun t => ((doc.count t : Nat) : ℚ) * (1 / (doc.length : ℚ)))
      (fun t _ => by ring)]
    rw [sum_map_mulQ toks (fun t => ((doc.count t : Nat) : ℚ)) (1 / (doc.length : ℚ))]
    rw [show toks.map (fun t => ((doc.count t : Nat) : ℚ)) =
        (toks.map (fun t => doc.count t)).map (fun (n : Nat) => (n : ℚ)) from by
      rw [List.map_map]
      rfl]
    rw [← natCast_list_sum, sum_count_eq doc toks htoksnd hdocsub]
    rw [mul_one_div, div_self (ne_of_gt hLD0)]
  set M := Nat.lcm (commonDen d1) (commonDen d2) with hMdef
  have hM0 : M ≠ 0 := Nat.lcm_ne_zero (commonDen_ne_zero d1) (commonDen_ne_zero d2)
  have hMQ : (0 : ℚ) < (M : ℚ) := by
    have h2 : 0 < M := Nat.pos_of_ne_zero hM0
    exact_mod_cast h2
  have hdvd1 : ∀ q ∈ d1, q.den ∣ M := fun q hq =>
    dvd_trans (den_dvd_commonDen d1 q hq) (Nat.dvd_lcm_left _ _)
  have hdvd2 : ∀ q ∈ d2, q.den ∣ M := fun q hq =>
    dvd_trans (den_dvd_commonDen d2 q hq) (Nat.dvd_lcm_right _ _)
  set sup := d1.map (scaleNat M) with hsupdef
  set dem := d2.map (scaleNat M) with hdemdef
  have hsuplen : sup.length = toks.length := by
    rw [hsupdef, List.length_map, hd1len]
  have hdemlen : dem.length = toks.length := by
    rw [hdemdef, List.length_map, hd2len]
  have hsupcast : ∀ i, i < toks.length →
      ((sup.getD i 0 : Nat) : ℚ) = d1.getD i 0 * (M : ℚ) := by
    intro i hi
    have hi1 : i < d1.length := by rwa [hd1len]
    rw [hsupdef, map_getD_lt d1 (scaleNat M) 0 0 i hi1]
    exact scaleNat_cast M _ (hd1nonneg _ (getD_mem d1 i 0 hi1))
      (hdvd1 _ (getD_mem d1 i 0 hi1))
  have hdemcast : ∀ j, j < toks.length →
      ((dem.getD j 0 : Nat) : ℚ) = d2.getD j 0 * (M : ℚ) := by
    intro j hj
    have hj1 : j < d2.length := by rwa [hd2len]
    rw [hdemdef, map_getD_lt d2 (scaleNat M) 0 0 j hj1]
    exact scaleNat_cast M _ (hd2nonneg _ (getD_mem d2 j 0 hj1))
      (hdvd2 _ (getD_mem d2 j 0 hj1))
  have hdem_zero : ∀ j, j < toks.length → toks.getD j [] ∉ doc →
      dem.getD j 0 = 0 := by
    intro j hj hnotin
    have hj1 : j < d2.length := by rwa [hd2len]
    rw [hdemdef, map_getD_lt d2 (scaleNat M) 0 0 j hj1, hd2val j hj,
      count_eq_zero_not_mem _ doc hnotin]
    rw [Nat.cast_zero, zero_div, scaleNat_zero]
  have hsup_zero : ∀ i, words.length ≤ i → i < toks.length → sup.getD i 0 = 0 := by
    intro i hle hlt
    have hi1 : i < d1.length := by rwa [hd1len]
    rw [hsupdef, map_getD_lt d1 (scaleNat M) 0 0 i hi1, hd1val_ge i hle hlt,
      scaleNat_zero]
  have hsupsum : sup.sum = M := by
    have hcast : ((sup.sum : Nat) : ℚ) = (M : ℚ) := by
      rw [natCast_list_sum, hsupdef, List.map_map]
      rw [sum_map_congr d1 ((fun (n : Nat) => (n : ℚ)) ∘ scaleNat M)
        (fun q => q * (M : ℚ)) (fun q hq =>
        scaleNat_cast M q (hd1nonneg q hq) (hdvd1 q hq))]
      rw [sum_map_mulQ d1 (fun (x : ℚ) => x) (M : ℚ), List.map_id', hd1sum, one_mul]
    exact Nat.cast_injective hcast
  have hdemsum : dem.sum = M := by
    have hcast : ((dem.sum : Nat) : ℚ) = (M : ℚ) := by
      rw [natCast_list_sum, hdemdef, List.map_map]
      rw [sum_map_congr d2 ((fun (n : Nat) => (n : ℚ)) ∘ scaleNat M)
        (fun q => q * (M : ℚ)) (fun q hq =>
        scaleNat_cast M q (hd2nonneg q hq) (hdvd2 q hq))]
      rw [sum_map_mulQ d2 (fun (x : ℚ) => x) (M : ℚ), List.map_id', hd2sum, one_mul]
    exact Nat.cast_injective hcast
  have hfeas : sup.sum = dem.sum := by rw [hsupsum, hdemsum]
  set C := distanceMatrix m words doc ad with hCdef
  have hCeq : C = (List.range toks.length).map (fun i =>
      (List.range toks.length).map (fun j =>
        if (toks.getD i [] ∈ words) ∧ (toks.getD j [] ∈ doc) then
          (ad.getD (idxOf m.vocab (toks.getD j [])) []).getD i 0
        else 0)) := by
    rw [hCdef, htoksdef]
    rfl
  have hClen : C.length = toks.length := by
    rw [hCeq, List.length_map, List.length_range]
  have hCw : ∀ c0 ∈ C, c0.length = toks.length := by
    intro c0 hc0
    rw [hCeq] at hc0
    obtain ⟨i, -, rfl⟩ := List.mem_map.mp hc0
    rw [List.length_map, List.length_range]
  have hCval : ∀ i j, i < toks.length → j < toks.length →
      (C.getD i []).getD j 0 =
        if (toks.getD i [] ∈ words) ∧ (toks.getD j [] ∈ doc) then
          (ad.getD (idxOf m.vocab (toks.getD j [])) []).getD i 0
        else 0 := by
    intro i j hi hj
    rw [hCeq]
    rw [map_getD_lt (List.range toks.length) _ 0 [] i (by simpa using hi)]
    rw [map_getD_lt (List.range toks.length) _ 0 0 j (by simpa using hj)]
    rw [getD_range _ i hi, getD_range _ j hj]
  set wd := doc.map (fun t => ad.getD (idxOf m.vocab t) []) with hwddef
  obtain ⟨hcol_some, hs0⟩ := optSum_getD _ s0 h0
  set colmin : Nat → ℚ := fun q => (minList (wd.map (fun r => r.getD q 0))).getD 0
    with hcolmindef
  have hs0' : s0 = ((List.range words.length).map colmin).sum := by
    rw [hs0, List.map_map]
    rfl
  have hcolmin_le : ∀ q, q < words.length →
      ∀ x ∈ wd.map (fun r => r.getD q 0), colmin q ≤ x := by
    intro q hq x hx
    have hsome := hcol_some (minList (wd.map (fun r => r.getD q 0)))
      (List.mem_map_of_mem _ (List.mem_range.mpr hq))
    cases hv : minList (wd.map (fun r => r.getD q 0)) with
    | none => exact absurd hv hsome
    | some v =>
      have hle := minList_le _ v hv x hx
      show (minList (wd.map (fun r => r.getD q 0))).getD 0 ≤ x
      rw [hv]
      simpa using hle
  set μs := (List.range toks.length).map
    (fun i => if i < words.length then colmin i else 0) with hμsdef
  have hμslen : μs.length = toks.length := by
    rw [hμsdef, List.length_map, List.length_range]
  have hμsval : ∀ i, i < toks.length →
      μs.getD i 0 = if i < words.length then colmin i else 0 := by
    intro i hi
    rw [hμsdef, map_getD_lt (List.range toks.length) _ 0 0 i (by simpa using hi),
      getD_range _ i hi]
  have hdempos_doc : ∀ j, j < toks.length → 0 < dem.getD j 0 →
      toks.getD j [] ∈ doc := by
    intro j hj hpos
    by_contra hnotin
    rw [hdem_zero j hj hnotin] at hpos
    exact lt_irrefl 0 hpos
  have hμbound : ∀ i j, i < sup.length → j < toks.length → 0 < dem.getD j 0 →
      μs.getD i 0 ≤ (C.getD i []).getD j 0 := by
    intro i j hi hj hpos
    have hi2 : i < toks.length := by rwa [hsuplen] at hi
    have hjdoc := hdempos_doc j hj hpos
    rw [hμsval i hi2, hCval i j hi2 hj]
    by_cases hiw : i < words.length
    · rw [if_pos hiw, if_pos ⟨htoksgetmem i hiw, hjdoc⟩]
      apply hcolmin_le i hiw
      exact List.mem_map_of_mem _ (List.mem_map_of_mem _ hjdoc)
    · rw [if_neg hiw,
        if_neg (fun hcontra => (htoksnotin i (le_of_not_lt hiw) hi2) hcontra.1)]
  have hB0 : (M : ℚ) * (s0 / (words.length : ℚ)) ≤ emdScaled sup dem C := by
    apply emdScaled_lower sup dem C _ hfeas
    intro T hT
    have hzipsum : (List.zipWith (fun (μ : ℚ) (s : Nat) => μ * (s : ℚ)) μs sup).sum
        = (M : ℚ) * (s0 / (words.length : ℚ)) := by
      rw [hμsdef, sum_zipWith_range_mul toks.length _ sup hsuplen]
      have e1 := sum_map_congr (List.range toks.length)
        (fun i => (if i < words.length then colmin i else 0) * ((sup.getD i 0 : Nat) : ℚ))
        (fun i => if i < words.length then colmin i * ((M : ℚ) / (words.length : ℚ)) else 0)
        (by
          intro i hi
          show (if i < words.length then colmin i else 0) * ((sup.getD i 0 : Nat) : ℚ) =
            if i < words.length then colmin i * ((M : ℚ) / (words.length : ℚ)) else 0
          have hiL : i < toks.length := List.mem_range.mp hi
          by_cases hiw : i < words.length
          · rw [if_pos hiw, if_pos hiw, hsupcast i hiL, hd1val_lt i hiw]
            ring
          · rw [if_neg hiw, if_neg hiw, zero_mul])
      rw [e1]
      rw [range_sum_zero_tail toks.length words.length hlenQ _
        (fun i hi => if_neg (not_lt.mpr hi))]
      have e2 := sum_map_congr (List.range words.length)
        (fun i => if i < words.length then colmin i * ((M : ℚ) / (words.length : ℚ)) else 0)
        (fun i => colmin i * ((M : ℚ) / (words.length : ℚ)))
        (fun i hi => if_pos (List.mem_range.mp hi))
      rw [e2, sum_map_mulQ (List.range words.length) colmin
        ((M : ℚ) / (words.length : ℚ)), ← hs0']
      field_simp
      ring
    rw [← hzipsum]
    refine plan_cost_row_bound dem sup dem μs C T hT
      (by rw [hμslen, hsuplen]) (by rw [hClen, hsuplen]) rfl
      (fun j => le_refl _) (fun c0 hc0 => by rw [hCw c0 hc0, hdemlen]) ?_
    intro i j hi hj hd0
    exact hμbound i j hi (by rwa [hdemlen] at hj) hd0
  have hemd : emd d1 d2 C = emdScaled sup dem C / (M : ℚ) := by
    rw [hsupdef, hdemdef, hMdef, emd]
  have hrow : s0 / (words.length : ℚ) ≤ emd d1 d2 C := by
    rw [hemd, le_div_iff₀ hMQ]
    calc s0 / (words.length : ℚ) * (M : ℚ)
        = (M : ℚ) * (s0 / (words.length : ℚ)) := by ring
      _ ≤ emdScaled sup dem C := hB0
  obtain ⟨hrow_some, hs1⟩ := optSum_getD _ s1 h1
  set rowmin : Str → ℚ := fun t => (minList (ad.getD (idxOf m.vocab t) [])).getD 0
    with hrowmindef
  have hs1' : s1 = (doc.map rowmin).sum := by
    rw [hs1, hwddef, List.map_map, List.map_map]
    rfl
  have hrowmin_le : ∀ t ∈ doc, ∀ x ∈ ad.getD (idxOf m.vocab t) [], rowmin t ≤ x := by
    intro t ht x hx
    have hsome := hrow_some (minList (ad.getD (idxOf m.vocab t) []))
      (by
        rw [hwddef, List.map_map]
        exact List.mem_map_of_mem _ ht)
    cases hv : minList (ad.getD (idxOf m.vocab t) []) with
    | none => exact absurd hv hsome
    | some v =>
      have hle := minList_le _ v hv x hx
      show (minList (ad.getD (idxOf m.vocab t) [])).getD 0 ≤ x
      rw [hv]
      simpa using hle
  set νs := (List.range toks.length).map
    (fun j => if toks.getD j [] ∈ doc then rowmin (toks.getD j []) else 0) with hνsdef
  have hνslen : νs.length = toks.length := by
    rw [hνsdef, List.length_map, List.length_range]
  have hνsval : ∀ j, j < toks.length →
      νs.getD j 0 = if toks.getD j [] ∈ doc then rowmin (toks.getD j []) else 0 := by
    intro j hj
    rw [hνsdef, map_getD_lt (List.range toks.length) _ 0 0 j (by simpa using hj),
      getD_range _ j hj]
  have hsuppos_lt : ∀ i, i < toks.length → 0 < sup.getD i 0 → i < words.length := by
    intro i hi hpos
    by_contra hge
    rw [hsup_zero i (le_of_not_lt hge) hi] at hpos
    exact lt_irrefl 0 hpos
  have hνbound : ∀ i j, i < sup.length → 0 < sup.getD i 0 → j < dem.length →
      νs.getD j 0 ≤ (C.getD i []).getD j 0 := by
    intro i j hi hpos hj
    have hi2 : i < toks.length := by rwa [hsuplen] at hi
    have hj2 : j < toks.length := by rwa [hdemlen] at hj
    have hiw : i < words.length := hsuppos_lt i hi2 hpos
    rw [hνsval j hj2, hCval i j hi2 hj2]
    by_cases hjdoc : toks.getD j [] ∈ doc
    · rw [if_pos hjdoc, if_pos ⟨htoksgetmem i hiw, hjdoc⟩]
      apply hrowmin_le _ hjdoc
      apply getD_mem
      rw [hrowlen _ hjdoc]
      exact hiw
    · rw [if_neg hjdoc, if_neg (fun hcontra => hjdoc hcontra.2)]
  have hB1 : (M : ℚ) * (s1 / (doc.length : ℚ)) ≤ emdScaled sup dem C := by
    apply emdScaled_lower sup dem C _ hfeas
    intro T hT
    have hsumprod : sumProd νs dem = (M : ℚ) * (s1 / (doc.length : ℚ)) := by
      rw [sumProd, hνsdef, sum_zipWith_range_mul toks.length _ dem hdemlen]
      have e1 := sum_map_congr (List.range toks.length)
        (fun j => (if toks.getD j [] ∈ doc then rowmin (toks.getD j []) else 0) *
          ((dem.getD j 0 : Nat) : ℚ))
        (fun j => (rowmin (toks.getD j []) * ((doc.count (toks.getD j []) : Nat) : ℚ)) *
          ((M : ℚ) / (doc.length : ℚ)))
        (by
          intro j hj
          show (if toks.getD j [] ∈ doc then rowmin (toks.getD j []) else 0) *
              ((dem.getD j 0 : Nat) : ℚ) =
            (rowmin (toks.getD j []) * ((doc.count (toks.getD j []) : Nat) : ℚ)) *
              ((M : ℚ) / (doc.length : ℚ))
          have hjL : j < toks.length := List.mem_range.mp hj
          by_cases hjdoc : toks.getD j [] ∈ doc
          · rw [if_pos hjdoc, hdemcast j hjL, hd2val j hjL]
            field_simp
            ring
          · rw [if_neg hjdoc, zero_mul,
              count_eq_zero_not_mem _ doc hjdoc]
            norm_num)
      rw [e1]
      rw [sum_map_mulQ (List.range toks.length)
        (fun j => rowmin (toks.getD j []) * ((doc.count (toks.getD j []) : Nat) : ℚ))
        ((M : ℚ) / (doc.length : ℚ))]
      rw [range_map_getD (fun t => rowmin t * ((doc.count t : Nat) : ℚ)) [] toks]
      rw [sum_count_mul rowmin doc toks htoksnd hdocsub, ← hs1']
      field_simp
      ring
    rw [← hsumprod]
    exact plan_cost_col_bound νs sup dem C T hT (by rw [hClen, hsuplen])
      (by rw [hνslen, hdemlen]) (fun c0 hc0 => by rw [hCw c0 hc0, hdemlen]) hνbound
  have hcol : s1 / (doc.length : ℚ) ≤ emd d1 d2 C := by
    rw [hemd, le_div_iff₀ hMQ]
    calc s1 / (doc.length : ℚ) * (M : ℚ)
        = (M : ℚ) * (s1 / (doc.length : ℚ)) := by ring
      _ ≤ emdScaled sup dem C := hB1
  exact ⟨hrow, hcol⟩

def c3wModel : W2VModel := ⟨[strOf "aa", strOf "bb"], [[1, 0], [3/5, 4/5]]⟩

def c3wWords : List Str := [strOf "aa"]

def c3wDoc : List Str := [strOf "bb"]

def c3wAd : List (List ℚ) := allDistances c3wModel c3wWords

/-- Witness for C3_amended at a concrete instance: one-token query `aa`,
one-token document `bb`, cosine distance 2/5; both one-sided sums are 2/5 and
both normalised bounds hold against the exact distance 2/5. -/
theorem C3_amended_witness :
    rwmdOf (c3wDoc.map (fun t => c3wAd.getD (idxOf c3wModel.vocab t) []))
        c3wWords.length = some (max (2/5 : ℚ) (2/5 : ℚ)) ∧
    ((((2/5 : ℚ) / (c3wWords.length : ℚ) : ℚ)) : WithTop ℚ) ≤
      wmdistance c3wModel c3wWords c3wDoc c3wAd ∧
    ((((2/5 : ℚ) / (c3wDoc.length : ℚ) : ℚ)) : WithTop ℚ) ≤
      wmdistance c3wModel c3wWords c3wDoc c3wAd :=
  C3_amended c3wModel c3wWords c3wDoc c3wAd
    (by decide)
    (by decide)
    (by decide)
    (by with_unfolding_all decide)
    (2/5) (2/5)
    (by with_unfolding_all decide)
    (by with_unfolding_all decide)

/-! ## Sortedness of the stable sort and sorted-permutation uniqueness -/

theorem mem_insSorted (le : α → α → Bool) (x a : α) (l : List α) :
    a ∈ insSorted le x l ↔ a = x ∨ a ∈ l :=
  (insSorted_perm le x l).mem_iff.trans (by simp)

theorem insSorted_pairwise (le : α → α → Bool)
    (htot : ∀ a b, le a b = true ∨ le b a = true)
    (htrans : ∀ a b c, le a b = true → le b c = true → le a c = true) (x : α) :
    ∀ (l : List α), l.Pairwise (fun a b => le a b = true) →
      (insSorted le x l).Pairwise (fun a b => le a b = true) := by
  intro l
  induction l with
  | nil => intro h2; simp [insSorted]
  | cons y ys ih =>
    intro hp
    obtain ⟨hy, hys⟩ := List.pairwise_cons.mp hp
    rw [insSorted]
    by_cases h : le y x
    · rw [if_pos h]
      refine List.pairwise_cons.mpr ⟨?_, ih hys⟩
      intro b hb
      rcases (mem_insSorted le x b ys).mp hb with rfl | hbm
      · exact h
      · exact hy b hbm
    · rw [if_neg h]
      have hxy : le x y = true := by
        rcases htot x y with h1 | h1
        · exact h1
        · exact absurd h1 h
      refine List.pairwise_cons.mpr ⟨?_, hp⟩
      intro b hb
      rcases List.mem_cons.mp hb with rfl | hbm
      · exact hxy
      · exact htrans x y b hxy (hy b hbm)

theorem stableSort_pairwise_aux (le : α → α → Bool)
    (htot : ∀ a b, le a b = true ∨ le b a = true)
    (htrans : ∀ a b c, le a b = true → le b c = true → le a c = true) :
    ∀ (l acc : List α), acc.Pairwise (fun a b => le a b = true) →
      (l.foldl (fun a x => insSorted le x a) acc).Pairwise
        (fun a b => le a b = true) := by
  intro l
  induction l with
  | nil => intro acc h; simpa using h
  | cons x l ih =>
    intro acc h
    exact ih (insSorted le x acc) (insSorted_pairwise le htot htrans x acc h)

theorem stableSort_pairwise (le : α → α → Bool)
    (htot : ∀ a b, le a b = true ∨ le b a = true)
    (htrans : ∀ a b c, le a b = true → le b c = true → le a c = true)
    (l : List α) :
    (stableSort le l).Pairwise (fun a b => le a b = true) :=
  stableSort_pairwise_aux le htot htrans l [] List.Pairwise.nil

/-- Two sorted permutations of each other with duplicate-free sort keys are
equal: sorting is deterministic once ties are impossible. -/
theorem eq_of_perm_sorted_keys {β : Type} [LinearOrder β] (key : α → β) :
    ∀ (l1 l2 : List α), l1.Perm l2 →
      l1.Pairwise (fun a b => key a ≤ key b) →
      l2.Pairwise (fun a b => key a ≤ key b) →
      (l1.map key).Nodup → l1 = l2 := by
  intro l1
  induction l1 with
  | nil => intro l2 hp _ _ _; exact hp.nil_eq
  | cons a t1 ih =>
    intro l2 hp hs1 hs2 hnd
    cases l2 with
    | nil =>
      have := hp.length_eq
      simp at this
    | cons b t2 =>
      have hab : a = b := by
        by_contra hne
        have hbmem : b ∈ a :: t1 := hp.mem_iff.mpr (List.mem_cons_self b t2)
        have hamem : a ∈ b :: t2 := hp.symm.mem_iff.mpr (List.mem_cons_self a t1)
        have hb1 : b ∈ t1 := by
          rcases List.mem_cons.mp hbmem with h | h
          · exact absurd h.symm hne
          · exact h
        have ha2 : a ∈ t2 := by
          rcases List.mem_cons.mp hamem with h | h
          · exact absurd h hne
          · exact h
        have h1 : key a ≤ key b := (List.pairwise_cons.mp hs1).1 b hb1
        have h2 : key b ≤ key a := (List.pairwise_cons.mp hs2).1 a ha2
        have hkey : key a = key b := le_antisymm h1 h2
        have hmem : key b ∈ t1.map key := List.mem_map_of_mem key hb1
        have hnd2 : (key a :: t1.map key).Nodup := by simpa using hnd
        exact (List.nodup_cons.mp hnd2).1 (by rw [hkey]; exact hmem)
      subst hab
      have ht : t1.Perm t2 := (List.perm_cons a).mp hp
      have hnd2 : (key a :: t1.map key).Nodup := by simpa using hnd
      rw [ih t2 ht (List.pairwise_cons.mp hs1).2 (List.pairwise_cons.mp hs2).2
        (List.nodup_cons.mp hnd2).2]

theorem length_insertAt : ∀ (j : Nat) (x : α) (l : List α),
    (insertAt j x l).length = l.length + 1 := by
  intro j
  induction j with
  | zero => intro x l; rfl
  | succ j ih =>
    intro x l
    cases l with
    | nil => rfl
    | cons y ys =>
      show (y :: insertAt j x ys).length = (y :: ys).length + 1
      simp [ih]

theorem insertAt_perm : ∀ (j : Nat) (x : α) (l : List α),
    (insertAt j x l).Perm (x :: l) := by
  intro j
  induction j with
  | zero => intro x l; exact List.Perm.refl _
  | succ j ih =>
    intro x l
    cases l with
    | nil => exact List.Perm.refl _
    | cons y ys =>
      show (y :: insertAt j x ys).Perm (x :: y :: ys)
      exact ((ih x ys).cons y).trans (List.Perm.swap x y ys)

theorem zip_insertAt {β : Type} : ∀ (j : Nat) (a : α) (b : β) (as : List α)
    (bs : List β), as.length = bs.length → j ≤ as.length →
    List.zip (insertAt j a as) (insertAt j b bs) =
      insertAt j (a, b) (List.zip as bs) := by
  intro j
  induction j with
  | zero => intro a b as bs _ _; rfl
  | succ j ih =>
    intro a b as bs hlen hj
    cases as with
    | nil => simp at hj
    | cons x xs =>
      cases bs with
      | nil => simp at hlen
      | cons y ys =>
        show List.zip (x :: insertAt j a xs) (y :: insertAt j b ys) =
          (x, y) :: insertAt j (a, b) (List.zip xs ys)
        rw [List.zip_cons_cons, ih a b xs ys (by simpa using hlen)
          (by simpa using hj)]

theorem mem_insertAt (j : Nat) (x a : α) (l : List α) :
    a ∈ insertAt j x l ↔ a = x ∨ a ∈ l :=
  (insertAt_perm j x l).mem_iff.trans (by simp)

theorem bisectRight_le_length : ∀ (l : List (WithTop ℚ)) (x : WithTop ℚ),
    bisectRight l x ≤ l.length := by
  intro l
  induction l with
  | nil => intro x; exact Nat.le_refl 0
  | cons d ds ih =>
    intro x
    rw [bisectRight, List.takeWhile_cons]
    by_cases hdx : (decide (d ≤ x)) = true
    · rw [if_pos hdx]
      simpa using ih x
    · rw [if_neg hdx]
      simp

theorem pairwise_insertAt_bisect (x : WithTop ℚ) :
    ∀ (l : List (WithTop ℚ)), l.Pairwise (· ≤ ·) →
      (insertAt (bisectRight l x) x l).Pairwise (· ≤ ·) := by
  intro l
  induction l with
  | nil => intro h2; simp [bisectRight, insertAt]
  | cons d ds ih =>
    intro hp
    obtain ⟨hd, hds⟩ := List.pairwise_cons.mp hp
    by_cases hdx : d ≤ x
    · have hb : bisectRight (d :: ds) x = bisectRight ds x + 1 := by
        rw [bisectRight, bisectRight, List.takeWhile_cons, if_pos (by simpa using hdx)]
        simp
      rw [hb]
      show (d :: insertAt (bisectRight ds x) x ds).Pairwise (· ≤ ·)
      refine List.pairwise_cons.mpr ⟨?_, ih hds⟩
      intro b hb2
      rcases (mem_insertAt _ x b ds).mp hb2 with rfl | hbm
      · exact hdx
      · exact hd b hbm
    · have hb : bisectRight (d :: ds) x = 0 := by
        rw [bisectRight, List.takeWhile_cons, if_neg (by simpa using hdx)]
        rfl
      rw [hb]
      show (x :: d :: ds).Pairwise (· ≤ ·)
      refine List.pairwise_cons.mpr ⟨?_, hp⟩
      intro b hb2
      rcases List.mem_cons.mp hb2 with rfl | hbm
      · exact le_of_not_le hdx
      · exact le_trans (le_of_not_le hdx) (hd b hbm)

/-! ## Stage-1 characterisation -/

theorem option_eq_some_getD (o : Option ℚ) (h : o ≠ none) : o = some (o.getD 0) := by
  cases o with
  | none => exact absurd rfl h
  | some a => rfl

theorem optSum_some_of_all : ∀ (l : List (Option ℚ)), (∀ o ∈ l, o ≠ none) →
    optSum l = some ((l.map (fun o => o.getD 0)).sum) := by
  intro l
  induction l with
  | nil => intro h2; rfl
  | cons o os ih =>
    intro h
    have ho : o ≠ none := h o (List.mem_cons_self o os)
    cases o with
    | none => exact absurd rfl ho
    | some a =>
      rw [optSum, ih (fun x hx => h x (List.mem_cons_of_mem _ hx))]
      simp

theorem idxOf_lt_of_mem [DecidableEq α] (w : α) : ∀ (l : List α), w ∈ l →
    idxOf l w < l.length := by
  intro l
  induction l with
  | nil => intro h; cases h
  | cons v vs ih =>
    intro hm
    rw [idxOf]
    by_cases hv : v = w
    · rw [if_pos hv]; simp
    · rw [if_neg hv]
      have hw : w ∈ vs := by
        rcases List.mem_cons.mp hm with h | h
        · exact absurd h.symm hv
        · exact h
      simpa using ih hw

theorem idxOf_getD [DecidableEq α] (d : α) : ∀ (l : List α) (i : Nat),
    l.Nodup → i < l.length → idxOf l (l.getD i d) = i := by
  intro l
  induction l with
  | nil => intro i _ h; simp at h
  | cons v vs ih =>
    intro i hnd hi
    cases i with
    | zero => rw [List.getD_cons_zero, idxOf, if_pos rfl]
    | succ i =>
      rw [List.getD_cons_succ, idxOf]
      have hne : v ≠ vs.getD i d := by
        intro he
        have hm : vs.getD i d ∈ vs := getD_mem vs i d (by simpa using hi)
        exact (List.nodup_cons.mp hnd).1 (by rw [he]; exact hm)
      rw [if_neg hne, ih i (List.nodup_cons.mp hnd).2 (by simpa using hi)]

/-- The matrix `word_dists = all_distances[indexes]` of the Stage-1 loop for
corpus position `i`: one row per in-vocabulary word of the document. -/
def stage1Wd (m : W2VModel) (corpus : List (List Str)) (ad : List (List ℚ))
    (i : Nat) : List (List ℚ) :=
  (((corpus.getD i []).filter (inVocab m)).map (idxOf m.vocab)).map
    (fun idx => ad.getD idx [])

/-- The Stage-1 relaxed value at corpus position `i` (defined when the
document has in-vocabulary words and the matrix rows are nonempty). -/
def rwOf (m : W2VModel) (corpus : List (List Str)) (ad : List (List ℚ))
    (ncols : Nat) (i : Nat) : ℚ :=
  (rwmdOf (stage1Wd m corpus ad i) ncols).getD 0

theorem rwmdOf_isSome (wd : List (List ℚ)) (ncols : Nat) (hne : wd ≠ [])
    (hrows : ∀ r ∈ wd, r ≠ []) : rwmdOf wd ncols ≠ none := by
  have h0 : sumMinAxis0 wd ncols =
      some ((((List.range ncols).map (fun q => minList (wd.map (fun r => r.getD q 0)))).map
        (fun o => o.getD 0)).sum) := by
    apply optSum_some_of_all
    intro o ho
    obtain ⟨q, -, rfl⟩ := List.mem_map.mp ho
    apply minList_isSome
    intro hnil
    exact hne (List.map_eq_nil_iff.mp hnil)
  have h1 : sumMinAxis1 wd =
      some (((wd.map minList).map (fun o => o.getD 0)).sum) := by
    apply optSum_some_of_all
    intro o ho
    obtain ⟨r, hr, rfl⟩ := List.mem_map.mp ho
    exact minList_isSome r (hrows r hr)
  rw [rwmdOf, h0, h1]
  simp

theorem stage1Wd_rows_nonempty (m : W2VModel) (corpus : List (List Str))
    (words : List Str) (i : Nat)
    (hvlen : m.vectors.length = m.vocab.length) (hw : words ≠ []) :
    ∀ r ∈ stage1Wd m corpus (allDistances m words) i, r ≠ [] := by
  intro r hr
  rw [stage1Wd] at hr
  obtain ⟨idx, hidx, rfl⟩ := List.mem_map.mp hr
  obtain ⟨t, ht, rfl⟩ := List.mem_map.mp hidx
  have htv : t ∈ m.vocab := by
    have := (List.mem_filter.mp ht).2
    simpa [inVocab] using this
  have hlt : idxOf m.vocab t < (allDistances m words).length := by
    rw [allDistances, List.length_map, hvlen]
    exact idxOf_lt_of_mem t m.vocab htv
  have hmem : (allDistances m words).getD (idxOf m.vocab t) [] ∈
      allDistances m words := getD_mem _ _ _ hlt
  rw [allDistances] at hmem
  obtain ⟨row, -, heq⟩ := List.mem_map.mp hmem
  intro hnil
  rw [allDistances] at hnil
  rw [← heq] at hnil
  exact hw (List.map_eq_nil_iff.mp hnil)

theorem rwmdOf_stage1_some (m : W2VModel) (corpus : List (List Str))
    (words : List Str) (i : Nat)
    (hvlen : m.vectors.length = m.vocab.length) (hw : words ≠ [])
    (hne : (corpus.getD i []).filter (inVocab m) ≠ []) :
    rwmdOf (stage1Wd m corpus (allDistances m words) i) words.length =
      some (rwOf m corpus (allDistances m words) words.length i) := by
  apply option_eq_some_getD
  apply rwmdOf_isSome
  · rw [stage1Wd]
    intro hnil
    exact hne (List.map_eq_nil_iff.mp (List.map_eq_nil_iff.mp hnil))
  · exact stage1Wd_rows_nonempty m corpus words i hvlen hw

theorem stage1Step_skip (m : W2VModel) (corpus : List (List Str))
    (bug_ids : List Nat) (ad : List (List ℚ)) (ncols : Nat)
    (ds : List (Nat × ℚ)) (i : Nat)
    (hcl : (corpus.getD i []).filter (inVocab m) = []) :
    stage1Step m corpus bug_ids ad ncols (some ds) i = some ds := by
  rw [stage1Step, hcl]
  rfl

theorem stage1Step_keep (m : W2VModel) (corpus : List (List Str))
    (bug_ids : List Nat) (ad : List (List ℚ)) (ncols : Nat)
    (ds : List (Nat × ℚ)) (i : Nat) (rw1 : ℚ)
    (hcl : (corpus.getD i []).filter (inVocab m) ≠ [])
    (hrw : rwmdOf (stage1Wd m corpus ad i) ncols = some rw1) :
    stage1Step m corpus bug_ids ad ncols (some ds) i =
      some (ds ++ [(bug_ids.getD i 0, rw1)]) := by
  rw [stage1Step]
  have hmap : ((corpus.getD i []).filter (inVocab m)).map (idxOf m.vocab) ≠ [] := by
    intro hnil
    exact hcl (List.map_eq_nil_iff.mp hnil)
  rw [stage1Wd] at hrw
  simp only [hrw, if_neg hmap]

theorem stage1_foldl (m : W2VModel) (corpus : List (List Str))
    (bug_ids : List Nat) (ad : List (List ℚ)) (ncols : Nat) :
    ∀ (L : List Nat) (ds : List (Nat × ℚ)),
      (∀ i ∈ L, (corpus.getD i []).filter (inVocab m) ≠ [] →
        rwmdOf (stage1Wd m corpus ad i) ncols =
          some (rwOf m corpus ad ncols i)) →
      L.foldl (stage1Step m corpus bug_ids ad ncols) (some ds) =
        some (ds ++ L.filterMap (fun i =>
          if (corpus.getD i []).filter (inVocab m) = [] then none
          else some (bug_ids.getD i 0, rwOf m corpus ad ncols i))) := by
  intro L
  induction L with
  | nil => intro ds _; simp
  | cons i L ih =>
    intro ds hsome
    rw [List.foldl_cons, List.filterMap_cons]
    by_cases hcl : (corpus.getD i []).filter (inVocab m) = []
    · rw [stage1Step_skip m corpus bug_ids ad ncols ds i hcl,
        ih ds (fun j hj => hsome j (List.mem_cons_of_mem i hj)), if_pos hcl]
    · rw [stage1Step_keep m corpus bug_ids ad ncols ds i
          (rwOf m corpus ad ncols i) hcl
          (hsome i (List.mem_cons_self i L) hcl),
        ih _ (fun j hj => hsome j (List.mem_cons_of_mem i hj)), if_neg hcl]
      simp

/-! ## Stage-2 characterisation -/

/-- The exact distance Stage 2 computes for candidate `doc_id` (line 303). -/
def wmdOfId (m : W2VModel) (corpus : List (List Str)) (bug_ids : List Nat)
    (words : List Str) (ad : List (List ℚ)) (doc_id : Nat) : WithTop ℚ :=
  wmdistance m words (cleanedOf m corpus bug_ids doc_id) ad

theorem stage2_cons_break (m : W2VModel) (corpus : List (List Str))
    (bug_ids : List Nat) (words : List Str) (ad : List (List ℚ))
    (doc_id : Nat) (rw1 : ℚ) (rest : List (Nat × ℚ)) (cids : List Nat)
    (cds : List (WithTop ℚ))
    (hbr : 10 ≤ cds.length ∧ cds.getD 9 ⊤ < ((rw1 : ℚ) : WithTop ℚ)) :
    stage2 m corpus bug_ids words ad ((doc_id, rw1) :: rest) cids cds =
      (cids, cds) := by
  rw [stage2, if_pos hbr]

theorem stage2_cons_go (m : W2VModel) (corpus : List (List Str))
    (bug_ids : List Nat) (words : List Str) (ad : List (List ℚ))
    (doc_id : Nat) (rw1 : ℚ) (rest : List (Nat × ℚ)) (cids : List Nat)
    (cds : List (WithTop ℚ))
    (hbr : ¬(10 ≤ cds.length ∧ cds.getD 9 ⊤ < ((rw1 : ℚ) : WithTop ℚ))) :
    stage2 m corpus bug_ids words ad ((doc_id, rw1) :: rest) cids cds =
      stage2 m corpus bug_ids words ad rest
        (insertAt (bisectRight cds (wmdOfId m corpus bug_ids words ad doc_id))
          doc_id cids)
        (insertAt (bisectRight cds (wmdOfId m corpus bug_ids words ad doc_id))
          (wmdOfId m corpus bug_ids words ad doc_id) cds) := by
  rw [stage2, if_neg hbr]
  rfl

theorem stage2_spec (m : W2VModel) (corpus : List (List Str))
    (bug_ids : List Nat) (words : List Str) (ad : List (List ℚ)) :
    ∀ (cands : List (Nat × ℚ)) (cids : List Nat) (cds : List (WithTop ℚ)),
      cids.length = cds.length →
      cds.Pairwise (· ≤ ·) →
      cands.Pairwise (fun a b => a.2 ≤ b.2) →
      (∀ p ∈ cands, ((p.2 : ℚ) : WithTop ℚ) ≤
        wmdOfId m corpus bug_ids words ad p.1) →
      ∀ (cids' : List Nat) (cds' : List (WithTop ℚ)),
        stage2 m corpus bug_ids words ad cands cids cds = (cids', cds') →
        cids'.length = cds'.length ∧
        cds'.Pairwise (· ≤ ·) ∧
        ((List.zip cids' cds').Perm (List.zip cids cds ++
            cands.map (fun p => (p.1, wmdOfId m corpus bug_ids words ad p.1)))
          ∨ ∃ done rest, cands = done ++ rest ∧
              (List.zip cids' cds').Perm (List.zip cids cds ++
                done.map (fun p => (p.1, wmdOfId m corpus bug_ids words ad p.1))) ∧
              10 ≤ cds'.length ∧
              ∀ p ∈ rest, cds'.getD 9 ⊤ <
                wmdOfId m corpus bug_ids words ad p.1) := by
  intro cands
  induction cands with
  | nil =>
    intro cids cds hlen hsort _ _ cids' cds' heq
    rw [stage2] at heq
    cases heq
    refine ⟨hlen, hsort, Or.inl ?_⟩
    simp
  | cons p rest ih =>
    obtain ⟨doc_id, rw1⟩ := p
    intro cids cds hlen hsort hcands hlb cids' cds' heq
    by_cases hbr : 10 ≤ cds.length ∧ cds.getD 9 ⊤ < ((rw1 : ℚ) : WithTop ℚ)
    · rw [stage2_cons_break m corpus bug_ids words ad doc_id rw1 rest cids cds hbr]
        at heq
      cases heq
      refine ⟨hlen, hsort, Or.inr ⟨[], (doc_id, rw1) :: rest, rfl, by simp,
        hbr.1, ?_⟩⟩
      intro q hq
      rcases List.mem_cons.mp hq with rfl | hqr
      · exact lt_of_lt_of_le hbr.2 (hlb (doc_id, rw1) (List.mem_cons_self _ rest))
      · calc cds.getD 9 ⊤ < ((rw1 : ℚ) : WithTop ℚ) := hbr.2
          _ ≤ ((q.2 : ℚ) : WithTop ℚ) :=
            WithTop.coe_le_coe.mpr ((List.pairwise_cons.mp hcands).1 q hqr)
          _ ≤ wmdOfId m corpus bug_ids words ad q.1 :=
            hlb q (List.mem_cons_of_mem _ hqr)
    · rw [stage2_cons_go m corpus bug_ids words ad doc_id rw1 rest cids cds hbr]
        at heq
      have hjle : bisectRight cds (wmdOfId m corpus bug_ids words ad doc_id) ≤
          cids.length := by
        rw [hlen]
        exact bisectRight_le_length cds _
      have hrec := ih
        (insertAt (bisectRight cds (wmdOfId m corpus bug_ids words ad doc_id))
          doc_id cids)
        (insertAt (bisectRight cds (wmdOfId m corpus bug_ids words ad doc_id))
          (wmdOfId m corpus bug_ids words ad doc_id) cds)
        (by rw [length_insertAt, length_insertAt, hlen])
        (pairwise_insertAt_bisect _ cds hsort)
        ((List.pairwise_cons.mp hcands).2)
        (fun q hq => hlb q (List.mem_cons_of_mem _ hq))
        cids' cds' heq
      obtain ⟨hlen', hsort', hdisj⟩ := hrec
      have hzip : List.zip
          (insertAt (bisectRight cds (wmdOfId m corpus bug_ids words ad doc_id))
            doc_id cids)
          (insertAt (bisectRight cds (wmdOfId m corpus bug_ids words ad doc_id))
            (wmdOfId m corpus bug_ids words ad doc_id) cds) =
          insertAt (bisectRight cds (wmdOfId m corpus bug_ids words ad doc_id))
            (doc_id, wmdOfId m corpus bug_ids words ad doc_id)
            (List.zip cids cds) :=
        zip_insertAt _ _ _ cids cds hlen hjle
      have hperm : (List.zip
          (insertAt (bisectRight cds (wmdOfId m corpus bug_ids words ad doc_id))
            doc_id cids)
          (insertAt (bisectRight cds (wmdOfId m corpus bug_ids words ad doc_id))
            (wmdOfId m corpus bug_ids words ad doc_id) cds)).Perm
          ((doc_id, wmdOfId m corpus bug_ids words ad doc_id) ::
            List.zip cids cds) := by
        rw [hzip]
        exact insertAt_perm _ _ _
      refine ⟨hlen', hsort', ?_⟩
      rcases hdisj with h | ⟨done, rest2, hsplit, hperm2, h10, hbound⟩
      · left
        refine h.trans ?_
        refine (List.Perm.append_right _ hperm).trans ?_
        show ((doc_id, wmdOfId m corpus bug_ids words ad doc_id) ::
          (List.zip cids cds ++ rest.map
            (fun p => (p.1, wmdOfId m corpus bug_ids words ad p.1)))).Perm _
        rw [List.map_cons]
        exact List.perm_middle.symm
      · right
        refine ⟨(doc_id, rw1) :: done, rest2, by rw [hsplit, List.cons_append], ?_, h10, hbound⟩
        refine hperm2.trans ?_
        refine (List.Perm.append_right _ hperm).trans ?_
        show ((doc_id, wmdOfId m corpus bug_ids words ad doc_id) ::
          (List.zip cids cds ++ done.map
            (fun p => (p.1, wmdOfId m corpus bug_ids words ad p.1)))).Perm _
        rw [List.map_cons]
        exact List.perm_middle.symm

/-! ## Take-10 determinism -/

theorem le2_total (a b : Nat × WithTop ℚ) :
    (fun a b : Nat × WithTop ℚ => decide (a.2 ≤ b.2)) a b = true ∨
    (fun a b : Nat × WithTop ℚ => decide (a.2 ≤ b.2)) b a = true := by
  rcases le_total a.2 b.2 with h | h
  · exact Or.inl (decide_eq_true h)
  · exact Or.inr (decide_eq_true h)

theorem le2_trans (a b c : Nat × WithTop ℚ)
    (h1 : (fun a b : Nat × WithTop ℚ => decide (a.2 ≤ b.2)) a b = true)
    (h2 : (fun a b : Nat × WithTop ℚ => decide (a.2 ≤ b.2)) b c = true) :
    (fun a b : Nat × WithTop ℚ => decide (a.2 ≤ b.2)) a c = true :=
  decide_eq_true (le_trans (of_decide_eq_true h1) (of_decide_eq_true h2))

/-- If the first ten confirmed pairs are sorted and every leftover pair's
value is strictly above the tenth confirmed value, the sorted full
arrangement starts with exactly those ten pairs (keys duplicate-free). -/
theorem take10_of_sorted_head (A B full : List (Nat × WithTop ℚ))
    (hA : A.Pairwise (fun a b => a.2 ≤ b.2))
    (h10 : 10 ≤ A.length)
    (hB : ∀ b ∈ B, (A.getD 9 (0, (⊤ : WithTop ℚ))).2 < b.2)
    (hperm : full.Perm (A ++ B))
    (hfull : full.Pairwise (fun a b => a.2 ≤ b.2))
    (hnodup : (full.map Prod.snd).Nodup) :
    full.take 10 = A.take 10 := by
  have h9A : 9 < A.length := by omega
  have hgetD9 : A.getD 9 (0, (⊤ : WithTop ℚ)) = A[9] :=
    List.getD_eq_getElem A _ h9A
  have hSperm : (A.take 10 ++ stableSort
      (fun a b : Nat × WithTop ℚ => decide (a.2 ≤ b.2))
      (A.drop 10 ++ B)).Perm (A ++ B) := by
    refine (List.Perm.append_left (A.take 10)
      (stableSort_perm _ (A.drop 10 ++ B))).trans ?_
    rw [← List.append_assoc, List.take_append_drop]
  have hfullS : full.Perm (A.take 10 ++ stableSort
      (fun a b : Nat × WithTop ℚ => decide (a.2 ≤ b.2)) (A.drop 10 ++ B)) :=
    hperm.trans hSperm.symm
  have htake_le : ∀ x ∈ A.take 10, x.2 ≤ A[9].2 := by
    intro x hx
    obtain ⟨i, hi, hxe⟩ := List.getElem_of_mem hx
    have hlen10 : (A.take 10).length = 10 := by
      rw [List.length_take]
      omega
    have hi10 : i < 10 := by rwa [hlen10] at hi
    have hiA : i < A.length := by omega
    have hxA : x = A[i] := by
      rw [← hxe, List.getElem_take]
    rcases Nat.lt_or_ge i 9 with hlt | hge
    · rw [hxA]
      exact (List.pairwise_iff_getElem.mp hA) i 9 hiA h9A hlt
    · have h9 : i = 9 := by omega
      subst h9
      rw [hxA]
  have hdropB : ∀ y ∈ A.drop 10 ++ B, A[9].2 ≤ y.2 := by
    intro y hy
    rcases List.mem_append.mp hy with hyd | hyb
    · obtain ⟨j, hj, hye⟩ := List.getElem_of_mem hyd
      have hjA : 10 + j < A.length := by
        rw [List.length_drop] at hj
        omega
      have hyA : y = A[10 + j] := by
        rw [← hye, List.getElem_drop]
      rw [hyA]
      exact (List.pairwise_iff_getElem.mp hA) 9 (10 + j) h9A hjA (by omega)
    · rw [← hgetD9]
      exact le_of_lt (hB y hyb)
  have hSsorted : (A.take 10 ++ stableSort
      (fun a b : Nat × WithTop ℚ => decide (a.2 ≤ b.2))
      (A.drop 10 ++ B)).Pairwise (fun a b => a.2 ≤ b.2) := by
    apply List.pairwise_append.mpr
    refine ⟨hA.sublist (List.take_sublist 10 A), ?_, ?_⟩
    · have hs := stableSort_pairwise
        (fun a b : Nat × WithTop ℚ => decide (a.2 ≤ b.2))
        le2_total le2_trans (A.drop 10 ++ B)
      exact hs.imp (fun h => of_decide_eq_true h)
    · intro x hx y hy
      have hymem : y ∈ A.drop 10 ++ B := (mem_stableSort _ _ y).mp hy
      exact le_trans (htake_le x hx) (hdropB y hymem)
  have hfulleqS : full = A.take 10 ++ stableSort
      (fun a b : Nat × WithTop ℚ => decide (a.2 ≤ b.2)) (A.drop 10 ++ B) :=
    eq_of_perm_sorted_keys Prod.snd full _ hfullS hfull hSsorted hnodup
  rw [hfulleqS]
  have hlen10 : (A.take 10).length = 10 := by
    rw [List.length_take]
    omega
  exact List.take_left' hlen10

/-! ## Connecting the two rankings -/

/-- Modelled from the spec: the candidate pool of the brute-force ranking,
one `(bug id, exact distance)` pair per corpus document with at least one
in-vocabulary word. -/
def bruteCands (m : W2VModel) (corpus : List (List Str)) (bug_ids : List Nat)
    (query : QueryBug) : List (Nat × WithTop ℚ) :=
  (List.range corpus.length).filterMap (fun i =>
    if (corpus.getD i []).filter (inVocab m) = [] then none
    else some (bug_ids.getD i 0,
      wmdistance m (query.tokens.filter (inVocab m))
        ((corpus.getD i []).filter (inVocab m))
        (allDistances m (query.tokens.filter (inVocab m)))))

theorem bruteForceTop10_eq (m : W2VModel) (corpus : List (List Str))
    (bug_ids : List Nat) (query : QueryBug) :
    bruteForceTop10 m corpus bug_ids query =
      (((stableSort (fun a b => decide (a.2 ≤ b.2))
        (bruteCands m corpus bug_ids query)).take 10).filter
        (fun s => decide (s.1 ≠ query.id))).map Prod.fst := rfl

theorem cleanedOf_getD (m : W2VModel) (corpus : List (List Str))
    (bug_ids : List Nat) (i : Nat) (hnd : bug_ids.Nodup)
    (hlen : bug_ids.length = corpus.length) (hi : i < corpus.length) :
    cleanedOf m corpus bug_ids (bug_ids.getD i 0) =
      (corpus.getD i []).filter (inVocab m) := by
  rw [cleanedOf, idxOf_getD 0 bug_ids i hnd (by rw [hlen]; exact hi)]

theorem S1_map_eq (m : W2VModel) (corpus : List (List Str))
    (bug_ids : List Nat) (query : QueryBug) (hnd : bug_ids.Nodup)
    (hlen : bug_ids.length = corpus.length) :
    ((List.range corpus.length).filterMap (fun i =>
      if (corpus.getD i []).filter (inVocab m) = [] then none
      else some (bug_ids.getD i 0,
        rwOf m corpus (allDistances m (query.tokens.filter (inVocab m)))
          (query.tokens.filter (inVocab m)).length i))).map
        (fun p => (p.1, wmdOfId m corpus bug_ids
          (query.tokens.filter (inVocab m))
          (allDistances m (query.tokens.filter (inVocab m))) p.1)) =
      bruteCands m corpus bug_ids query := by
  rw [List.map_filterMap, bruteCands]
  apply List.filterMap_congr
  intro i hi
  by_cases hcl : (corpus.getD i []).filter (inVocab m) = []
  · rw [if_pos hcl, if_pos hcl]
    rfl
  · rw [if_neg hcl, if_neg hcl]
    show some (bug_ids.getD i 0, wmdOfId m corpus bug_ids _ _ (bug_ids.getD i 0)) = _
    rw [wmdOfId, cleanedOf_getD m corpus bug_ids i hnd hlen (List.mem_range.mp hi)]

theorem le2q_total (a b : Nat × ℚ) :
    (fun a b : Nat × ℚ => decide (a.2 ≤ b.2)) a b = true ∨
    (fun a b : Nat × ℚ => decide (a.2 ≤ b.2)) b a = true := by
  rcases le_total a.2 b.2 with h | h
  · exact Or.inl (decide_eq_true h)
  · exact Or.inr (decide_eq_true h)

theorem le2q_trans (a b c : Nat × ℚ)
    (h1 : (fun a b : Nat × ℚ => decide (a.2 ≤ b.2)) a b = true)
    (h2 : (fun a b : Nat × ℚ => decide (a.2 ≤ b.2)) b c = true) :
    (fun a b : Nat × ℚ => decide (a.2 ≤ b.2)) a c = true :=
  decide_eq_true (le_trans (of_decide_eq_true h1) (of_decide_eq_true h2))

theorem zip_getD_snd (as : List Nat) (bs : List (WithTop ℚ)) (i : Nat)
    (h : i < (as.zip bs).length) :
    ((as.zip bs).getD i (0, (⊤ : WithTop ℚ))).2 = bs.getD i ⊤ := by
  have hbs : i < bs.length := by
    rw [List.length_zip] at h
    omega
  rw [List.getD_eq_getElem _ _ h, List.getD_eq_getElem bs _ hbs,
    List.getElem_zip]

theorem zip_pairwise_snd (as : List Nat) (bs : List (WithTop ℚ))
    (h : as.length = bs.length) (hp : bs.Pairwise (· ≤ ·)) :
    (as.zip bs).Pairwise (fun a b => a.2 ≤ b.2) := by
  have hmap : (as.zip bs).map Prod.snd = bs := List.map_snd_zip as bs (le_of_eq h.symm)
  rw [← hmap] at hp
  exact List.pairwise_map.mp hp

theorem w2v_unfold (m : W2VModel) (corpus : List (List Str))
    (bug_ids : List Nat) (query : QueryBug) (S1 : List (Nat × ℚ))
    (h1 : stage1 m corpus bug_ids
      (allDistances m (query.tokens.filter (inVocab m)))
      (query.tokens.filter (inVocab m)).length = some S1)
    (cids' : List Nat) (cds' : List (WithTop ℚ))
    (h2 : stage2 m corpus bug_ids (query.tokens.filter (inVocab m))
      (allDistances m (query.tokens.filter (inVocab m)))
      (stableSort (fun a b => decide (a.2 ≤ b.2)) S1) [] [] = (cids', cds')) :
    w2v_get_similar_bugs m corpus bug_ids query =
      some ((((stableSort (fun a b => decide (a.2 ≤ b.2))
        (List.zip cids' cds')).take 10).filter
        (fun s => decide (s.1 ≠ query.id))).map Prod.fst) := by
  rw [w2v_get_similar_bugs]
  simp only [h1, h2]

/-- Claim C2 amended: the filter-then-refine output equals the brute-force
top-10 ranking PROVIDED the Stage-1 relaxed values really are lower bounds
on the exact distances (which the code does not guarantee, as the
counterexample shows), the bug-id list is duplicate-free and aligned with
the corpus, the embedding table is aligned with the vocabulary, the query
has at least one in-vocabulary token, and the exact distances are pairwise
distinct (so that ranking ties cannot reorder the output). -/
theorem C2_amended (m : W2VModel) (corpus : List (List Str))
    (bug_ids : List Nat) (query : QueryBug)
    (hnd : bug_ids.Nodup)
    (hlen : bug_ids.length = corpus.length)
    (hvlen : m.vectors.length = m.vocab.length)
    (hw : query.tokens.filter (inVocab m) ≠ [])
    (hlb : ∀ i ∈ List.range corpus.length,
      (corpus.getD i []).filter (inVocab m) ≠ [] →
      ((rwOf m corpus (allDistances m (query.tokens.filter (inVocab m)))
          (query.tokens.filter (inVocab m)).length i : ℚ) : WithTop ℚ) ≤
        wmdistance m (query.tokens.filter (inVocab m))
          ((corpus.getD i []).filter (inVocab m))
          (allDistances m (query.tokens.filter (inVocab m))))
    (hdistinct : ((bruteCands m corpus bug_ids query).map Prod.snd).Nodup) :
    w2v_get_similar_bugs m corpus bug_ids query =
      some (bruteForceTop10 m corpus bug_ids query) := by
  have hsome : ∀ i ∈ List.range corpus.length,
      (corpus.getD i []).filter (inVocab m) ≠ [] →
      rwmdOf (stage1Wd m corpus
          (allDistances m (query.tokens.filter (inVocab m))) i)
          (query.tokens.filter (inVocab m)).length =
        some (rwOf m corpus (allDistances m (query.tokens.filter (inVocab m)))
          (query.tokens.filter (inVocab m)).length i) :=
    fun i _ hne => rwmdOf_stage1_some m corpus
      (query.tokens.filter (inVocab m)) i hvlen hw hne
  have h1 : stage1 m corpus bug_ids
      (allDistances m (query.tokens.filter (inVocab m)))
      (query.tokens.filter (inVocab m)).length =
      some ((List.range corpus.length).filterMap (fun i =>
        if (corpus.getD i []).filter (inVocab m) = [] then none
        else some (bug_ids.getD i 0,
          rwOf m corpus (allDistances m (query.tokens.filter (inVocab m)))
            (query.tokens.filter (inVocab m)).length i))) := by
    rw [stage1, stage1_foldl m corpus bug_ids _ _ (List.range corpus.length)
      [] hsome, List.nil_append]
  set S1 : List (Nat × ℚ) := (List.range corpus.length).filterMap (fun i =>
    if (corpus.getD i []).filter (inVocab m) = [] then none
    else some (bug_ids.getD i 0,
      rwOf m corpus (allDistances m (query.tokens.filter (inVocab m)))
        (query.tokens.filter (inVocab m)).length i)) with hS1def
  rcases hP : stage2 m corpus bug_ids (query.tokens.filter (inVocab m))
      (allDistances m (query.tokens.filter (inVocab m)))
      (stableSort (fun a b => decide (a.2 ≤ b.2)) S1) [] [] with ⟨cids', cds'⟩
  rw [w2v_unfold m corpus bug_ids query S1 h1 cids' cds' hP,
    bruteForceTop10_eq]
  refine congrArg some (congrArg (List.map Prod.fst)
    (congrArg (List.filter _) ?_))
  have hdist_sorted : (stableSort (fun a b : Nat × ℚ => decide (a.2 ≤ b.2))
      S1).Pairwise (fun a b => a.2 ≤ b.2) :=
    (stableSort_pairwise _ le2q_total le2q_trans S1).imp
      (fun h => of_decide_eq_true h)
  have hdist_lb : ∀ p ∈ stableSort (fun a b : Nat × ℚ => decide (a.2 ≤ b.2)) S1,
      ((p.2 : ℚ) : WithTop ℚ) ≤ wmdOfId m corpus bug_ids
        (query.tokens.filter (inVocab m))
        (allDistances m (query.tokens.filter (inVocab m))) p.1 := by
    intro p hp
    have hpS1 : p ∈ S1 := (mem_stableSort _ S1 p).mp hp
    rw [hS1def] at hpS1
    obtain ⟨i, hi, hfi⟩ := List.mem_filterMap.mp hpS1
    by_cases hcl : (corpus.getD i []).filter (inVocab m) = []
    · rw [if_pos hcl] at hfi
      cases hfi
    · rw [if_neg hcl] at hfi
      obtain rfl := Option.some_inj.mp hfi
      rw [wmdOfId, cleanedOf_getD m corpus bug_ids i hnd hlen
        (List.mem_range.mp hi)]
      exact hlb i hi hcl
  obtain ⟨hlen', hsort', hdisj⟩ := stage2_spec m corpus bug_ids
    (query.tokens.filter (inVocab m))
    (allDistances m (query.tokens.filter (inVocab m)))
    (stableSort (fun a b => decide (a.2 ≤ b.2)) S1) [] [] rfl
    List.Pairwise.nil hdist_sorted hdist_lb cids' cds' hP
  have hmapperm : ((stableSort (fun a b : Nat × ℚ => decide (a.2 ≤ b.2))
      S1).map (fun p => (p.1, wmdOfId m corpus bug_ids
        (query.tokens.filter (inVocab m))
        (allDistances m (query.tokens.filter (inVocab m))) p.1))).Perm
      (bruteCands m corpus bug_ids query) := by
    refine ((stableSort_perm _ S1).map _).trans ?_
    rw [hS1def]
    rw [S1_map_eq m corpus bug_ids query hnd hlen]
  have hbrute_sorted : (stableSort
      (fun a b : Nat × WithTop ℚ => decide (a.2 ≤ b.2))
      (bruteCands m corpus bug_ids query)).Pairwise
      (fun a b => a.2 ≤ b.2) :=
    (stableSort_pairwise _ le2_total le2_trans _).imp
      (fun h => of_decide_eq_true h)
  have hbrute_keys : ((stableSort
      (fun a b : Nat × WithTop ℚ => decide (a.2 ≤ b.2))
      (bruteCands m corpus bug_ids query)).map Prod.snd).Nodup :=
    (((stableSort_perm _ _).map Prod.snd).nodup_iff).mpr hdistinct
  rcases hdisj with hperm | ⟨done, rest, hsplit, hperm2, h10, hbound⟩
  · simp only [List.zip_nil_left, List.nil_append] at hperm
    have hchain : (List.zip cids' cds').Perm
        (bruteCands m corpus bug_ids query) := hperm.trans hmapperm
    have hzip_sorted : (stableSort
        (fun a b : Nat × WithTop ℚ => decide (a.2 ≤ b.2))
        (List.zip cids' cds')).Pairwise (fun a b => a.2 ≤ b.2) :=
      (stableSort_pairwise _ le2_total le2_trans _).imp
        (fun h => of_decide_eq_true h)
    have hp2 : (stableSort (fun a b : Nat × WithTop ℚ => decide (a.2 ≤ b.2))
        (List.zip cids' cds')).Perm
        (stableSort (fun a b : Nat × WithTop ℚ => decide (a.2 ≤ b.2))
          (bruteCands m corpus bug_ids query)) :=
      ((stableSort_perm _ _).trans hchain).trans (stableSort_perm _ _).symm
    have hkeys : ((stableSort
        (fun a b : Nat × WithTop ℚ => decide (a.2 ≤ b.2))
        (List.zip cids' cds')).map Prod.snd).Nodup :=
      ((hp2.map Prod.snd).nodup_iff).mpr hbrute_keys
    rw [eq_of_perm_sorted_keys Prod.snd _ _ hp2 hzip_sorted hbrute_sorted hkeys]
  · simp only [List.zip_nil_left, List.nil_append] at hperm2
    have hA_sorted : (List.zip cids' cds').Pairwise (fun a b => a.2 ≤ b.2) :=
      zip_pairwise_snd cids' cds' hlen' hsort'
    have hAlen : (List.zip cids' cds').length = cds'.length := by
      rw [List.length_zip cids' cds', hlen', min_self]
    have h10' : 10 ≤ (List.zip cids' cds').length := by
      rw [hAlen]
      exact h10
    have hdonesub : List.Sublist
        ((done.map (fun p => (p.1, wmdOfId m corpus bug_ids
          (query.tokens.filter (inVocab m))
          (allDistances m (query.tokens.filter (inVocab m))) p.1))).map
          Prod.snd)
        (((stableSort (fun a b : Nat × ℚ => decide (a.2 ≤ b.2)) S1).map
          (fun p => (p.1, wmdOfId m corpus bug_ids
            (query.tokens.filter (inVocab m))
            (allDistances m (query.tokens.filter (inVocab m))) p.1))).map
          Prod.snd) := by
      rw [hsplit]
      exact ((List.sublist_append_left done rest).map _).map Prod.snd
    have hSmapnodup : (((stableSort (fun a b : Nat × ℚ => decide (a.2 ≤ b.2))
        S1).map (fun p => (p.1, wmdOfId m corpus bug_ids
          (query.tokens.filter (inVocab m))
          (allDistances m (query.tokens.filter (inVocab m))) p.1))).map
          Prod.snd).Nodup :=
      ((hmapperm.map Prod.snd).nodup_iff).mpr hdistinct
    have hAnodup : ((List.zip cids' cds').map Prod.snd).Nodup :=
      ((hperm2.map Prod.snd).nodup_iff).mpr (hSmapnodup.sublist hdonesub)
    have hsortA : stableSort
        (fun a b : Nat × WithTop ℚ => decide (a.2 ≤ b.2))
        (List.zip cids' cds') = List.zip cids' cds' := by
      refine eq_of_perm_sorted_keys Prod.snd _ _ (stableSort_perm _ _) ?_
        hA_sorted ?_
      · exact (stableSort_pairwise _ le2_total le2_trans _).imp
          (fun h => of_decide_eq_true h)
      · exact (((stableSort_perm _ _).map Prod.snd).nodup_iff).mpr hAnodup
    rw [hsortA]
    have hB : ∀ b ∈ rest.map (fun p => (p.1, wmdOfId m corpus bug_ids
        (query.tokens.filter (inVocab m))
        (allDistances m (query.tokens.filter (inVocab m))) p.1)),
        ((List.zip cids' cds').getD 9 (0, (⊤ : WithTop ℚ))).2 < b.2 := by
      intro b hb
      obtain ⟨p, hp, rfl⟩ := List.mem_map.mp hb
      rw [zip_getD_snd cids' cds' 9 (by omega)]
      exact hbound p hp
    have hfullperm : (stableSort
        (fun a b : Nat × WithTop ℚ => decide (a.2 ≤ b.2))
        (bruteCands m corpus bug_ids query)).Perm
        (List.zip cids' cds' ++ rest.map (fun p => (p.1, wmdOfId m corpus
          bug_ids (query.tokens.filter (inVocab m))
          (allDistances m (query.tokens.filter (inVocab m))) p.1))) := by
      refine ((stableSort_perm _ _).trans hmapperm.symm).trans ?_
      rw [hsplit, List.map_append]
      exact List.Perm.append_right _ hperm2.symm
    exact (take10_of_sorted_head (List.zip cids' cds') _ _ hA_sorted h10'
      hB hfullperm hbrute_sorted hbrute_keys).symm

def c2wModel : W2VModel := ⟨[strOf "aa", strOf "bb"], [[1, 0], [0, 1]]⟩

def c2wCorpus : List (List Str) := [[strOf "aa"], [strOf "bb"]]

def c2wIds : List Nat := [1, 2]

def c2wQuery : QueryBug := ⟨100, [strOf "aa"]⟩


/-- Witness for C2_amended: two-document corpus over an orthonormal
two-word vocabulary; the query matches document 1's word, both rankings
return the ids in the order `[2, 1]` (document 1's exact self-distance is
the all-zero-matrix infinity). -/
theorem C2_amended_witness :
    w2v_get_similar_bugs c2wModel c2wCorpus c2wIds c2wQuery =
      some (bruteForceTop10 c2wModel c2wCorpus c2wIds c2wQuery) :=
  C2_amended c2wModel c2wCorpus c2wIds c2wQuery
    (by decide) (by decide) (by decide) (by decide)
    (by with_unfolding_all decide)
    (by with_unfolding_all decide)
